import Mathlib

/-!
The LRU-K replacer of BusTub (`src/buffer/lru_k_replacer.cpp`).

A shallow embedding of `bustub::LRUKReplacer` and a verification of its
eviction policy.

The class keeps two `std::list<frame_id_t>` (history and cache), two maps from a
frame id to a position in the corresponding list, two maps from a frame id to
its access count and its evictable flag, and the evictable count `curr_size_`.

Modelling decisions (the header declaring the members is not among the
sources, so the member types are read off their uses in the `.cpp` file):

* `access_count_` and `is_evictable_` are only ever used through `operator[]`,
  which yields the value-initialised element (`0`, `false`) for a key that is
  not stored. They are total functions; a key that is not stored and a key
  stored with the default value are the same function.
* `history_map_` and `cache_map_` are used through `count`, `erase` and
  `operator[]`. The only value ever stored under a key `f` is `begin()` taken
  right after `push_front(f)`, so the stored position designates the front-most
  node of the list that holds `f`. The model keeps the key set and resolves the
  position when the list is erased through it (`eraseVia`). Erasing through a
  key that is not stored (`operator[]` then yields a singular iterator), or
  whose node is gone, is undefined behaviour: the operation has no result
  (`Outcome.undefined`).
* `frame_id_t` is a 32 bit signed integer, `size_t` is 64 bits wide.
  `curr_size_`, which `Size` returns as a `size_t`, wraps around as `size_t`
  does (`incr`, `decr`). An access count only ever goes up by one per call of
  `RecordAccess`, so a 64 bit counter cannot wrap before `2^64` calls on one
  frame; access counts are natural numbers.
* both `throw std::exception()` sites throw the same type; `Thrown` records
  which of the two sites threw.
* the mutex is not modelled: every operation holds the one lock for its whole
  body, the operations are atomic steps on the state.
* recency is measured on the sequence of calls that produced a state:
  `runClocked` runs the calls and keeps, next to the state, ghost clocks
  (`Clocks`) with the position of each frame's latest `RecordAccess` call and
  of its latest `RecordAccess` call made at access count 0.
-/

namespace bustub

/-- The value of `static_cast<int>(n)` for a `size_t` value `n`. -/
def static_cast_int (n : Nat) : Int :=
  if n % 2 ^ 32 < 2 ^ 31 then ((n % 2 ^ 32 : Nat) : Int) else ((n % 2 ^ 32 : Nat) : Int) - 2 ^ 32

/-- The values of `frame_id_t`. -/
def isFrameId (frame_id : Int) : Prop := -(2 ^ 31) ≤ frame_id ∧ frame_id < 2 ^ 31

instance (frame_id : Int) : Decidable (isFrameId frame_id) := by
  unfold isFrameId; infer_instance

/-- The value of `n++` on a `size_t`. -/
def incr (n : Nat) : Nat := (n + 1) % 2 ^ 64

/-- The value of `n--` on a `size_t`. -/
def decr (n : Nat) : Nat := (2 ^ 64 - 1 + n) % 2 ^ 64

/-- The members of `LRUKReplacer`. The two maps to list positions are given by their key sets. -/
structure LRUKReplacer where
  replacer_size_ : Nat
  k_ : Nat
  curr_size_ : Nat
  access_count_ : Int → Nat
  is_evictable_ : Int → Bool
  history_list_ : List Int
  history_map_ : Int → Bool
  cache_list_ : List Int
  cache_map_ : Int → Bool

/-- The two `throw std::exception()` sites: the range check at the head of `RecordAccess`,
`SetEvictable` and `Remove`, and the evictable check of `Remove`. -/
inductive Thrown where
  | InvalidFrame
  | NotEvictable
  deriving DecidableEq, Repr

/-- How a call ends: it returns a value, it throws (the state is the one at the `throw`),
or it runs into undefined behaviour. -/
inductive Outcome (α : Type) where
  | returned (value : α) (s : LRUKReplacer)
  | thrown (e : Thrown) (s : LRUKReplacer)
  | undefined

/-- The state a call leaves behind, when it returns or throws. -/
def Outcome.state? {α : Type} : Outcome α → Option LRUKReplacer
  | .returned _ s => some s
  | .thrown _ s => some s
  | .undefined => none

/-- The value a call returns. -/
def Outcome.value? {α : Type} : Outcome α → Option α
  | .returned v _ => some v
  | .thrown _ _ => none
  | .undefined => none

/-- The list after `list.erase(map[frame])`: the position stored under `frame` is the front-most
node holding `frame`; there is no result when the key is not stored or the node is gone. -/
def eraseVia (map : Int → Bool) (list : List Int) (frame : Int) : Option (List Int) :=
  if map frame = true ∧ frame ∈ list then some (list.erase frame) else none

namespace LRUKReplacer

/-- The constructor `LRUKReplacer::LRUKReplacer(size_t num_frames, size_t k)`: all containers
empty, `curr_size_` 0. -/
def construct (num_frames k : Nat) : LRUKReplacer where
  replacer_size_ := num_frames
  k_ := k
  curr_size_ := 0
  access_count_ := fun _ => 0
  is_evictable_ := fun _ => false
  history_list_ := []
  history_map_ := fun _ => false
  cache_list_ := []
  cache_map_ := fun _ => false

/-- The member function `LRUKReplacer::Size`. -/
def Size (s : LRUKReplacer) : Nat := s.curr_size_

/-- The member function `LRUKReplacer::Evict`: `some frame` stands for `true` with
`*frame_id = frame`, `none` for `false` with the output slot not written. -/
def Evict (s : LRUKReplacer) : Outcome (Option Int) :=
  if s.curr_size_ = 0 then .returned none s
  else
    match s.history_list_.reverse.find? (fun frame => s.is_evictable_ frame) with
    | some frame =>
      match eraseVia s.history_map_ s.history_list_ frame with
      | none => .undefined
      | some list =>
        .returned (some frame)
          { s with
            access_count_ := Function.update s.access_count_ frame 0
            is_evictable_ := Function.update s.is_evictable_ frame false
            history_list_ := list
            history_map_ := Function.update s.history_map_ frame false
            curr_size_ := decr s.curr_size_ }
    | none =>
      match s.cache_list_.reverse.find? (fun frame => s.is_evictable_ frame) with
      | some frame =>
        match eraseVia s.cache_map_ s.cache_list_ frame with
        | none => .undefined
        | some list =>
          .returned (some frame)
            { s with
              access_count_ := Function.update s.access_count_ frame 0
              is_evictable_ := Function.update s.is_evictable_ frame false
              cache_list_ := list
              cache_map_ := Function.update s.cache_map_ frame false
              curr_size_ := decr s.curr_size_ }
      | none => .returned none s

/-- The member function `LRUKReplacer::RecordAccess`. -/
def RecordAccess (s : LRUKReplacer) (frame_id : Int) : Outcome Unit :=
  if frame_id > static_cast_int s.replacer_size_ then .thrown .InvalidFrame s
  else
    let count := s.access_count_ frame_id + 1
    let s1 := { s with access_count_ := Function.update s.access_count_ frame_id count }
    if count = s.k_ then
      match eraseVia s.history_map_ s.history_list_ frame_id with
      | none => .undefined
      | some list =>
        .returned ()
          { s1 with
            cache_list_ := frame_id :: s.cache_list_
            cache_map_ := Function.update s.cache_map_ frame_id true
            history_list_ := list
            history_map_ := Function.update s.history_map_ frame_id false }
    else if count > s.k_ then
      if s.cache_map_ frame_id = true then
        match eraseVia s.cache_map_ s.cache_list_ frame_id with
        | none => .undefined
        | some list =>
          .returned ()
            { s1 with
              cache_list_ := frame_id :: list
              cache_map_ := Function.update s.cache_map_ frame_id true }
      else
        .returned ()
          { s1 with
            cache_list_ := frame_id :: s.cache_list_
            cache_map_ := Function.update s.cache_map_ frame_id true }
    else
      if s.history_map_ frame_id = false then
        .returned ()
          { s1 with
            history_list_ := frame_id :: s.history_list_
            history_map_ := Function.update s.history_map_ frame_id true }
      else .returned () s1

/-- The member function `LRUKReplacer::SetEvictable`. -/
def SetEvictable (s : LRUKReplacer) (frame_id : Int) (set_evictable : Bool) : Outcome Unit :=
  if frame_id > static_cast_int s.replacer_size_ then .thrown .InvalidFrame s
  else if s.access_count_ frame_id = 0 then .returned () s
  else
    let size1 :=
      if s.is_evictable_ frame_id = false ∧ set_evictable = true then incr s.curr_size_
      else s.curr_size_
    let size2 :=
      if s.is_evictable_ frame_id = true ∧ set_evictable = false then decr size1 else size1
    .returned ()
      { s with
        curr_size_ := size2
        is_evictable_ := Function.update s.is_evictable_ frame_id set_evictable }

/-- The member function `LRUKReplacer::Remove`. -/
def Remove (s : LRUKReplacer) (frame_id : Int) : Outcome Unit :=
  if frame_id > static_cast_int s.replacer_size_ then .thrown .InvalidFrame s
  else
    let cnt := s.access_count_ frame_id
    if cnt = 0 then .returned () s
    else if s.is_evictable_ frame_id = false then .thrown .NotEvictable s
    else if cnt < s.k_ then
      match eraseVia s.history_map_ s.history_list_ frame_id with
      | none => .undefined
      | some list =>
        .returned ()
          { s with
            history_list_ := list
            history_map_ := Function.update s.history_map_ frame_id false
            curr_size_ := decr s.curr_size_
            access_count_ := Function.update s.access_count_ frame_id 0
            is_evictable_ := Function.update s.is_evictable_ frame_id false }
    else
      match eraseVia s.cache_map_ s.cache_list_ frame_id with
      | none => .undefined
      | some list =>
        .returned ()
          { s with
            cache_list_ := list
            cache_map_ := Function.update s.cache_map_ frame_id false
            curr_size_ := decr s.curr_size_
            access_count_ := Function.update s.access_count_ frame_id 0
            is_evictable_ := Function.update s.is_evictable_ frame_id false }

end LRUKReplacer

/-- A call of one of the four state-changing member functions. -/
inductive Call where
  | RecordAccess (frame_id : Int)
  | SetEvictable (frame_id : Int) (set_evictable : Bool)
  | Evict
  | Remove (frame_id : Int)

/-- The argument of the call is a value of `frame_id_t`. -/
def Call.typed : Call → Prop
  | .RecordAccess frame_id => isFrameId frame_id
  | .SetEvictable frame_id _ => isFrameId frame_id
  | .Evict => True
  | .Remove frame_id => isFrameId frame_id

/-- The state after a call that returns or throws. -/
def Call.after (s : LRUKReplacer) : Call → Option LRUKReplacer
  | .RecordAccess frame_id => (s.RecordAccess frame_id).state?
  | .SetEvictable frame_id set_evictable => (s.SetEvictable frame_id set_evictable).state?
  | .Evict => s.Evict.state?
  | .Remove frame_id => (s.Remove frame_id).state?

/-- The states reachable from `LRUKReplacer(num_frames, k)` by calls that return or throw. -/
inductive Reachable (num_frames k : Nat) : LRUKReplacer → Prop where
  | construct : Reachable num_frames k (LRUKReplacer.construct num_frames k)
  | call (s s' : LRUKReplacer) (c : Call) :
      Reachable num_frames k s → c.typed → c.after s = some s' → Reachable num_frames k s'

/-- The state after a sequence of calls, when none of them runs into undefined behaviour. -/
def runCalls (s : LRUKReplacer) : List Call → Option LRUKReplacer
  | [] => some s
  | c :: cs => (c.after s).bind (fun s' => runCalls s' cs)

/-- The representation invariant of the reachable states. -/
structure Inv (s : LRUKReplacer) : Prop where
  history_nodup : s.history_list_.Nodup
  cache_nodup : s.cache_list_.Nodup
  history_keys : ∀ f, s.history_map_ f = true ↔ f ∈ s.history_list_
  cache_keys : ∀ f, s.cache_map_ f = true ↔ f ∈ s.cache_list_
  history_count : ∀ f, f ∈ s.history_list_ ↔ 1 ≤ s.access_count_ f ∧ s.access_count_ f < s.k_
  cache_count : ∀ f, f ∈ s.cache_list_ ↔ 1 ≤ s.access_count_ f ∧ s.k_ ≤ s.access_count_ f
  flag_count : ∀ f, s.is_evictable_ f = true → 1 ≤ s.access_count_ f
  size : s.curr_size_
    = s.history_list_.countP s.is_evictable_ + s.cache_list_.countP s.is_evictable_
  typed : ∀ f, 1 ≤ s.access_count_ f → isFrameId f

/-- The state once `frame` is taken off the history list: the tail of `Evict` and of `Remove`. -/
def dropHistory (s : LRUKReplacer) (frame : Int) : LRUKReplacer :=
  { s with
    access_count_ := Function.update s.access_count_ frame 0
    is_evictable_ := Function.update s.is_evictable_ frame false
    history_list_ := s.history_list_.erase frame
    history_map_ := Function.update s.history_map_ frame false
    curr_size_ := decr s.curr_size_ }

/-- The state once `frame` is taken off the cache list: the tail of `Evict` and of `Remove`. -/
def dropCache (s : LRUKReplacer) (frame : Int) : LRUKReplacer :=
  { s with
    access_count_ := Function.update s.access_count_ frame 0
    is_evictable_ := Function.update s.is_evictable_ frame false
    cache_list_ := s.cache_list_.erase frame
    cache_map_ := Function.update s.cache_map_ frame false
    curr_size_ := decr s.curr_size_ }

/-- The state after a sequence of calls; the run stops at a call with undefined behaviour. -/
def afterCalls (s : LRUKReplacer) (cs : List Call) : LRUKReplacer := (runCalls s cs).getD s

/-- The calls of the tier scenario: frame 1 accessed twice, frame 2 accessed once, both marked
evictable. -/
def tierCalls : List Call :=
  [.RecordAccess 1, .RecordAccess 1, .RecordAccess 2, .SetEvictable 1 true, .SetEvictable 2 true]

/-- The tier scenario, with `k = 2`: frame 1 is in the cache list, frame 2 in the history list. -/
def tierScenario : LRUKReplacer := afterCalls (LRUKReplacer.construct 3 2) tierCalls

/-- The calls of the single-frame scenario: frame 0 accessed once and marked evictable. -/
def singleCalls : List Call := [.RecordAccess 0, .SetEvictable 0 true]

/-- The single-frame scenario, with `k = 2` and `num_frames = 3`. -/
def singleScenario : LRUKReplacer := afterCalls (LRUKReplacer.construct 3 2) singleCalls

/-- The calls of the pinned scenario: frame 0 accessed once, never marked evictable. -/
def pinnedCalls : List Call := [.RecordAccess 0]

/-- The pinned scenario, with `k = 2` and `num_frames = 3`. -/
def pinnedScenario : LRUKReplacer := afterCalls (LRUKReplacer.construct 3 2) pinnedCalls

instance (c : Call) : Decidable c.typed := by
  cases c <;> unfold Call.typed <;> infer_instance

/-- Ghost clocks kept along a run of calls: `now` is the number of calls made so far, `last f`
the position of the latest call `RecordAccess(f)`, `entered f` the position of the latest call
`RecordAccess(f)` made while the access count of `f` was 0. Positions count from 1; 0 stands
for no such call. -/
structure Clocks where
  now : Nat
  last : Int → Nat
  entered : Int → Nat

/-- The clocks before the first call. -/
def Clocks.start : Clocks where
  now := 0
  last := fun _ => 0
  entered := fun _ => 0

/-- The clocks after the call `c` made in state `s`. -/
def Clocks.tick (t : Clocks) (s : LRUKReplacer) : Call → Clocks
  | .RecordAccess frame_id =>
    { now := t.now + 1
      last := Function.update t.last frame_id (t.now + 1)
      entered :=
        if s.access_count_ frame_id = 0 then Function.update t.entered frame_id (t.now + 1)
        else t.entered }
  | .SetEvictable _ _ => { t with now := t.now + 1 }
  | .Evict => { t with now := t.now + 1 }
  | .Remove _ => { t with now := t.now + 1 }

/-- The state and the clocks after a sequence of calls, when none of them runs into undefined
behaviour. -/
def runClocked (s : LRUKReplacer) (t : Clocks) : List Call → Option (LRUKReplacer × Clocks)
  | [] => some (s, t)
  | c :: cs =>
    match c.after s with
    | none => none
    | some s' => runClocked s' (t.tick s c) cs

/-- The state and the clocks after the calls `cs` on a fresh `LRUKReplacer(num_frames, k)`; the
run stops at a call with undefined behaviour. -/
def clockedAfter (num_frames k : Nat) (cs : List Call) : LRUKReplacer × Clocks :=
  (runClocked (LRUKReplacer.construct num_frames k) Clocks.start cs).getD
    (LRUKReplacer.construct num_frames k, Clocks.start)

/-- What the clocks say about the two lists: the representation invariant holds, every tracked
frame passed the range check, no stamp is ahead of `now`, the cache list is in descending order
of `last`, the history list in descending order of `entered`, and a frame with access count 1
was last accessed when it entered. -/
structure Timed (s : LRUKReplacer) (t : Clocks) : Prop where
  inv : Inv s
  passed : ∀ f, 1 ≤ s.access_count_ f → ¬ f > static_cast_int s.replacer_size_
  last_le : ∀ f, t.last f ≤ t.now
  entered_le : ∀ f, t.entered f ≤ t.now
  stamped : ∀ f, 1 ≤ s.access_count_ f → 1 ≤ t.entered f ∧ t.entered f ≤ t.last f
  once : ∀ f, s.access_count_ f = 1 → t.last f = t.entered f
  cache_sorted : s.cache_list_.Pairwise (fun a b => t.last a > t.last b)
  history_sorted : s.history_list_.Pairwise (fun a b => t.entered a > t.entered b)

/-- The calls of the repeat scenario (`k = 3`): frame 1 accessed, frame 2 accessed, frame 1
accessed again, both marked evictable. -/
def repeatCalls : List Call :=
  [.RecordAccess 1, .RecordAccess 2, .RecordAccess 1, .SetEvictable 1 true, .SetEvictable 2 true]

/-- The repeat scenario with `k = 3`: both frames stay below the threshold. -/
def repeatScenario : LRUKReplacer × Clocks := clockedAfter 3 3 repeatCalls

/-- The calls of the hot scenario (`k = 2`): frames 1 and 2 are promoted in this order, then
frame 1 is accessed once more; both are marked evictable. -/
def hotCalls : List Call :=
  [.RecordAccess 1, .RecordAccess 2, .RecordAccess 1, .RecordAccess 2, .RecordAccess 1,
    .SetEvictable 1 true, .SetEvictable 2 true]

/-- The hot scenario with `k = 2`: both frames are in the cache list. -/
def hotScenario : LRUKReplacer × Clocks := clockedAfter 3 2 hotCalls

/-- The calls of the edge scenario (`num_frames = 1`): the ids 0, 1 and -1 are accessed once
and marked evictable. -/
def edgeCalls : List Call :=
  [.RecordAccess 0, .RecordAccess 1, .RecordAccess (-1), .SetEvictable 0 true,
    .SetEvictable 1 true, .SetEvictable (-1) true]

/-- The edge scenario with `num_frames = 1` and `k = 2`. -/
def edgeScenario : LRUKReplacer := afterCalls (LRUKReplacer.construct 1 2) edgeCalls

open LRUKReplacer

/-! Lists and counters. -/

theorem countP_update_of_not_mem (p : Int → Bool) (f : Int) (b : Bool) (l : List Int)
    (h : f ∉ l) : l.countP (Function.update p f b) = l.countP p := by
  apply List.countP_congr
  intro x hx
  have hne : x ≠ f := fun e => h (e ▸ hx)
  rw [Function.update_noteq hne]

theorem countP_erase_add (p : Int → Bool) (f : Int) (l : List Int) (hm : f ∈ l) :
    (l.erase f).countP p + (if p f = true then 1 else 0) = l.countP p := by
  induction l with
  | nil => simp at hm
  | cons a t ih =>
    by_cases ha : a = f
    · subst ha
      simp [List.countP_cons]
    · have hm' : f ∈ t := by
        rcases List.mem_cons.1 hm with h | h
        · exact absurd h.symm ha
        · exact h
      have hb : ¬ (a == f) = true := by simpa using ha
      rw [List.erase_cons_tail hb]
      have := ih hm'
      simp only [List.countP_cons]
      omega

theorem countP_update_mem (p : Int → Bool) (f : Int) (b : Bool) (l : List Int)
    (hn : l.Nodup) (hm : f ∈ l) :
    l.countP (Function.update p f b) + (if p f = true then 1 else 0)
      = l.countP p + (if b = true then 1 else 0) := by
  induction l with
  | nil => simp at hm
  | cons a t ih =>
    have hat : a ∉ t := (List.nodup_cons.1 hn).1
    have hnt : t.Nodup := (List.nodup_cons.1 hn).2
    by_cases ha : a = f
    · subst ha
      simp only [List.countP_cons, countP_update_of_not_mem p a b t hat, Function.update_same]
      omega
    · have hm' : f ∈ t := by
        rcases List.mem_cons.1 hm with h | h
        · exact absurd h.symm ha
        · exact h
      have := ih hnt hm'
      simp only [List.countP_cons, Function.update_noteq ha]
      omega

theorem length_le_of_nodup_of_isFrameId (l : List Int) (hn : l.Nodup)
    (ht : ∀ x ∈ l, isFrameId x) : l.length ≤ 2 ^ 32 := by
  have hsub : l.toFinset ⊆ Finset.Ico (-(2 ^ 31) : Int) (2 ^ 31) := by
    intro x hx
    have := ht x (List.mem_toFinset.1 hx)
    exact Finset.mem_Ico.2 this
  have hcard := Finset.card_le_card hsub
  rw [List.toFinset_card_of_nodup hn, Int.card_Ico] at hcard
  have : ((2 : Int) ^ 31 - -(2 ^ 31)).toNat = 2 ^ 32 := by decide
  omega

/-! The representation invariant is kept by every call. -/

theorem inv_construct (num_frames k : Nat) : Inv (construct num_frames k) := by
  constructor <;> simp [construct]

theorem Inv.history_length_le {s : LRUKReplacer} (h : Inv s) : s.history_list_.length ≤ 2 ^ 32 :=
  length_le_of_nodup_of_isFrameId _ h.history_nodup
    (fun x hx => h.typed x ((h.history_count x).1 hx).1)

theorem Inv.cache_length_le {s : LRUKReplacer} (h : Inv s) : s.cache_list_.length ≤ 2 ^ 32 :=
  length_le_of_nodup_of_isFrameId _ h.cache_nodup
    (fun x hx => h.typed x ((h.cache_count x).1 hx).1)

theorem Inv.size_le {s : LRUKReplacer} (h : Inv s) : s.curr_size_ ≤ 2 ^ 33 := by
  have h1 := h.history_length_le
  have h2 := h.cache_length_le
  have h3 := @List.countP_le_length _ s.is_evictable_ s.history_list_
  have h4 := @List.countP_le_length _ s.is_evictable_ s.cache_list_
  have := h.size
  omega

theorem Inv.not_mem_both {s : LRUKReplacer} (h : Inv s) (f : Int) :
    ¬ (f ∈ s.history_list_ ∧ f ∈ s.cache_list_) := by
  rintro ⟨h1, h2⟩
  have := (h.history_count f).1 h1
  have := (h.cache_count f).1 h2
  omega

theorem inv_dropHistory (s : LRUKReplacer) (f : Int) (h : Inv s) (hm : f ∈ s.history_list_)
    (he : s.is_evictable_ f = true) : Inv (dropHistory s f) := by
  have hc := (h.history_count f).1 hm
  have hnc : f ∉ s.cache_list_ := fun hx => h.not_mem_both f ⟨hm, hx⟩
  have hsz := h.size_le
  have h1 := countP_erase_add s.is_evictable_ f s.history_list_ hm
  have h2 := countP_update_of_not_mem s.is_evictable_ f false _ (h.history_nodup.not_mem_erase)
  have h3 := countP_update_of_not_mem s.is_evictable_ f false _ hnc
  have hs := h.size
  constructor
  · exact h.history_nodup.erase f
  · exact h.cache_nodup
  · intro g
    simp only [dropHistory, h.history_nodup.mem_erase_iff, Function.update_apply]
    by_cases hg : g = f
    · simp [hg]
    · simp [hg, h.history_keys g]
  · intro g
    exact h.cache_keys g
  · intro g
    simp only [dropHistory, h.history_nodup.mem_erase_iff, Function.update_apply]
    by_cases hg : g = f
    · simp [hg]
    · simp [hg, h.history_count g]
  · intro g
    simp only [dropHistory, Function.update_apply]
    by_cases hg : g = f
    · simp [hg, hnc]
    · simp [hg, h.cache_count g]
  · intro g
    simp only [dropHistory, Function.update_apply]
    by_cases hg : g = f
    · simp [hg]
    · simp only [hg, if_false]; exact h.flag_count g
  · simp only [dropHistory, decr, h2, h3]
    rw [he] at h1
    simp only [if_true] at h1
    omega
  · intro g
    simp only [dropHistory, Function.update_apply]
    by_cases hg : g = f
    · simp [hg]
    · simp only [hg, if_false]; exact h.typed g

theorem inv_dropCache (s : LRUKReplacer) (f : Int) (h : Inv s) (hm : f ∈ s.cache_list_)
    (he : s.is_evictable_ f = true) : Inv (dropCache s f) := by
  have hc := (h.cache_count f).1 hm
  have hnh : f ∉ s.history_list_ := fun hx => h.not_mem_both f ⟨hx, hm⟩
  have hsz := h.size_le
  have h1 := countP_erase_add s.is_evictable_ f s.cache_list_ hm
  have h2 := countP_update_of_not_mem s.is_evictable_ f false _ (h.cache_nodup.not_mem_erase)
  have h3 := countP_update_of_not_mem s.is_evictable_ f false _ hnh
  have hs := h.size
  constructor
  · exact h.history_nodup
  · exact h.cache_nodup.erase f
  · intro g
    exact h.history_keys g
  · intro g
    simp only [dropCache, h.cache_nodup.mem_erase_iff, Function.update_apply]
    by_cases hg : g = f
    · simp [hg]
    · simp [hg, h.cache_keys g]
  · intro g
    simp only [dropCache, Function.update_apply]
    by_cases hg : g = f
    · simp [hg, hnh]
    · simp [hg, h.history_count g]
  · intro g
    simp only [dropCache, h.cache_nodup.mem_erase_iff, Function.update_apply]
    by_cases hg : g = f
    · simp [hg]
    · simp [hg, h.cache_count g]
  · intro g
    simp only [dropCache, Function.update_apply]
    by_cases hg : g = f
    · simp [hg]
    · simp only [hg, if_false]; exact h.flag_count g
  · simp only [dropCache, decr, h2, h3]
    rw [he] at h1
    simp only [if_true] at h1
    omega
  · intro g
    simp only [dropCache, Function.update_apply]
    by_cases hg : g = f
    · simp [hg]
    · simp only [hg, if_false]; exact h.typed g

theorem eraseVia_eq_some (map : Int → Bool) (list : List Int) (frame : Int) (l : List Int) :
    eraseVia map list frame = some l ↔ (map frame = true ∧ frame ∈ list) ∧ l = list.erase frame := by
  unfold eraseVia
  by_cases hc : map frame = true ∧ frame ∈ list
  · simp only [hc, and_self, if_true, Option.some.injEq, true_and]
    exact eq_comm
  · simp [hc]

theorem eraseVia_eq_none (map : Int → Bool) (list : List Int) (frame : Int) :
    eraseVia map list frame = none ↔ ¬ (map frame = true ∧ frame ∈ list) := by
  unfold eraseVia
  by_cases hc : map frame = true ∧ frame ∈ list
  · simp [hc]
  · simp [hc]

theorem Inv.eraseVia_history {s : LRUKReplacer} (h : Inv s) (f : Int) (hm : f ∈ s.history_list_) :
    eraseVia s.history_map_ s.history_list_ f = some (s.history_list_.erase f) :=
  (eraseVia_eq_some _ _ _ _).2 ⟨⟨(h.history_keys f).2 hm, hm⟩, rfl⟩

theorem Inv.eraseVia_cache {s : LRUKReplacer} (h : Inv s) (f : Int) (hm : f ∈ s.cache_list_) :
    eraseVia s.cache_map_ s.cache_list_ f = some (s.cache_list_.erase f) :=
  (eraseVia_eq_some _ _ _ _).2 ⟨⟨(h.cache_keys f).2 hm, hm⟩, rfl⟩

theorem incr_eq (n : Nat) (h : n + 1 < 2 ^ 64) : incr n = n + 1 := by
  unfold incr; omega

theorem decr_eq (n : Nat) (h0 : 0 < n) (h : n < 2 ^ 64) : decr n + 1 = n := by
  unfold decr; omega

theorem inv_SetEvictable (s : LRUKReplacer) (f : Int) (b : Bool) (h : Inv s) (s' : LRUKReplacer)
    (hs : (s.SetEvictable f b).state? = some s') : Inv s' := by
  unfold SetEvictable at hs
  by_cases hr : f > static_cast_int s.replacer_size_
  · simp only [hr, if_true, Outcome.state?, Option.some.injEq] at hs
    subst hs; exact h
  by_cases hc : s.access_count_ f = 0
  · simp only [hr, hc, if_true, if_false, Outcome.state?, Option.some.injEq] at hs
    subst hs; exact h
  simp only [hr, hc, if_false, Outcome.state?, Option.some.injEq] at hs
  subst hs
  have hsz := h.size_le
  have hs := h.size
  have hcnt : 1 ≤ s.access_count_ f := Nat.pos_of_ne_zero hc
  have hsize : (if s.is_evictable_ f = true ∧ b = false then
        decr (if s.is_evictable_ f = false ∧ b = true then incr s.curr_size_ else s.curr_size_)
      else (if s.is_evictable_ f = false ∧ b = true then incr s.curr_size_ else s.curr_size_))
      = s.history_list_.countP (Function.update s.is_evictable_ f b)
        + s.cache_list_.countP (Function.update s.is_evictable_ f b) := by
    by_cases hk : s.access_count_ f < s.k_
    · have hmh : f ∈ s.history_list_ := (h.history_count f).2 ⟨hcnt, hk⟩
      have hnc : f ∉ s.cache_list_ := fun hx => h.not_mem_both f ⟨hmh, hx⟩
      have h1 := countP_update_mem s.is_evictable_ f b _ h.history_nodup hmh
      have h2 := countP_update_of_not_mem s.is_evictable_ f b _ hnc
      rw [h2]
      cases hfe : s.is_evictable_ f <;> cases b <;> simp [hfe] at h1 ⊢
      · omega
      · rw [incr_eq _ (by omega)]; omega
      · have := decr_eq s.curr_size_ (by omega) (by omega); omega
      · omega
    · have hmc : f ∈ s.cache_list_ := (h.cache_count f).2 ⟨hcnt, by omega⟩
      have hnh : f ∉ s.history_list_ := fun hx => h.not_mem_both f ⟨hx, hmc⟩
      have h1 := countP_update_mem s.is_evictable_ f b _ h.cache_nodup hmc
      have h2 := countP_update_of_not_mem s.is_evictable_ f b _ hnh
      rw [h2]
      cases hfe : s.is_evictable_ f <;> cases b <;> simp [hfe] at h1 ⊢
      · omega
      · rw [incr_eq _ (by omega)]; omega
      · have := decr_eq s.curr_size_ (by omega) (by omega); omega
      · omega
  constructor
  · exact h.history_nodup
  · exact h.cache_nodup
  · exact h.history_keys
  · exact h.cache_keys
  · exact h.history_count
  · exact h.cache_count
  · intro g
    simp only [Function.update_apply]
    by_cases hg : g = f
    · intro _; rw [hg]; exact hcnt
    · simp only [hg, if_false]; exact h.flag_count g
  · exact hsize
  · exact h.typed

theorem inv_RecordAccess (s : LRUKReplacer) (f : Int) (h : Inv s) (hf : isFrameId f)
    (s' : LRUKReplacer) (hs : (s.RecordAccess f).state? = some s') : Inv s' := by
  unfold RecordAccess at hs
  by_cases hr : f > static_cast_int s.replacer_size_
  · simp only [hr, if_true, Outcome.state?, Option.some.injEq] at hs
    subst hs; exact h
  simp only [hr, if_false] at hs
  have hsz := h.size
  by_cases hk : s.access_count_ f + 1 = s.k_
  · -- promotion
    simp only [hk, if_true] at hs
    cases hev : eraseVia s.history_map_ s.history_list_ f with
    | none => rw [hev] at hs; simp [Outcome.state?] at hs
    | some l =>
      rw [hev] at hs
      simp only [Outcome.state?, Option.some.injEq] at hs
      obtain ⟨⟨_, hm⟩, hl⟩ := (eraseVia_eq_some _ _ _ _).1 hev
      subst hl
      subst hs
      have hnc : f ∉ s.cache_list_ := fun hx => h.not_mem_both f ⟨hm, hx⟩
      have h1 := countP_erase_add s.is_evictable_ f s.history_list_ hm
      constructor
      · exact h.history_nodup.erase f
      · exact List.nodup_cons.2 ⟨hnc, h.cache_nodup⟩
      · intro g
        simp only [h.history_nodup.mem_erase_iff, Function.update_apply]
        by_cases hg : g = f
        · simp [hg]
        · simp [hg, h.history_keys g]
      · intro g
        simp only [List.mem_cons, Function.update_apply]
        by_cases hg : g = f
        · simp [hg]
        · simp [hg, h.cache_keys g]
      · intro g
        simp only [h.history_nodup.mem_erase_iff, Function.update_apply]
        by_cases hg : g = f
        · simp [hg]
        · simp [hg, h.history_count g]
      · intro g
        simp only [List.mem_cons, Function.update_apply]
        by_cases hg : g = f
        · simp [hg]; omega
        · simp [hg, h.cache_count g]
      · intro g
        simp only [Function.update_apply]
        by_cases hg : g = f
        · simp only [hg, if_true]; intro _; omega
        · simp only [hg, if_false]; exact h.flag_count g
      · simp only [List.countP_cons]
        omega
      · intro g
        simp only [Function.update_apply]
        by_cases hg : g = f
        · intro _; rw [hg]; exact hf
        · simp only [hg, if_false]; exact h.typed g
  simp only [hk, if_false] at hs
  by_cases hgt : s.access_count_ f + 1 > s.k_
  · -- move to the front of the cache list
    simp only [hgt, if_true] at hs
    have hnh : f ∉ s.history_list_ := fun hx => by
      have := (h.history_count f).1 hx
      omega
    by_cases hcm : s.cache_map_ f = true
    · simp only [hcm, if_true] at hs
      have hm : f ∈ s.cache_list_ := (h.cache_keys f).1 hcm
      rw [h.eraseVia_cache f hm] at hs
      simp only [Outcome.state?, Option.some.injEq] at hs
      subst hs
      have h1 := countP_erase_add s.is_evictable_ f s.cache_list_ hm
      have hc := (h.cache_count f).1 hm
      constructor
      · exact h.history_nodup
      · exact List.nodup_cons.2 ⟨h.cache_nodup.not_mem_erase, h.cache_nodup.erase f⟩
      · exact h.history_keys
      · intro g
        simp only [List.mem_cons, h.cache_nodup.mem_erase_iff, Function.update_apply]
        by_cases hg : g = f
        · simp [hg]
        · simp [hg, h.cache_keys g]
      · intro g
        simp only [Function.update_apply]
        by_cases hg : g = f
        · simp [hg, hnh]; omega
        · simp [hg, h.history_count g]
      · intro g
        simp only [List.mem_cons, h.cache_nodup.mem_erase_iff, Function.update_apply]
        by_cases hg : g = f
        · simp [hg]; omega
        · simp [hg, h.cache_count g]
      · intro g
        simp only [Function.update_apply]
        by_cases hg : g = f
        · simp [hg]
        · simp only [hg, if_false]; exact h.flag_count g
      · simp only [List.countP_cons]
        omega
      · intro g
        simp only [Function.update_apply]
        by_cases hg : g = f
        · intro _; rw [hg]; exact hf
        · simp only [hg, if_false]; exact h.typed g
    · simp only [hcm, Bool.false_eq_true, if_false, Outcome.state?, Option.some.injEq] at hs
      subst hs
      have hnc : f ∉ s.cache_list_ := fun hx => hcm ((h.cache_keys f).2 hx)
      have hfl : s.is_evictable_ f = false := by
        cases hfe : s.is_evictable_ f
        · rfl
        · exfalso
          have h1 := h.flag_count f hfe
          exact hnc ((h.cache_count f).2 ⟨h1, by omega⟩)
      constructor
      · exact h.history_nodup
      · exact List.nodup_cons.2 ⟨hnc, h.cache_nodup⟩
      · exact h.history_keys
      · intro g
        simp only [List.mem_cons, Function.update_apply]
        by_cases hg : g = f
        · simp [hg]
        · simp [hg, h.cache_keys g]
      · intro g
        simp only [Function.update_apply]
        by_cases hg : g = f
        · simp [hg, hnh]; omega
        · simp [hg, h.history_count g]
      · intro g
        simp only [List.mem_cons, Function.update_apply]
        by_cases hg : g = f
        · simp [hg]; omega
        · simp [hg, h.cache_count g]
      · intro g
        simp only [Function.update_apply]
        by_cases hg : g = f
        · simp [hg]
        · simp only [hg, if_false]; exact h.flag_count g
      · simp only [List.countP_cons, hfl]
        simpa using hsz
      · intro g
        simp only [Function.update_apply]
        by_cases hg : g = f
        · intro _; rw [hg]; exact hf
        · simp only [hg, if_false]; exact h.typed g
  · -- below the threshold
    simp only [hgt, if_false] at hs
    have hlt : s.access_count_ f + 1 < s.k_ := by omega
    have hnc : f ∉ s.cache_list_ := fun hx => by
      have := (h.cache_count f).1 hx
      omega
    by_cases hhm : s.history_map_ f = false
    · simp only [hhm, if_true] at hs
      simp only [Outcome.state?, Option.some.injEq] at hs
      subst hs
      have hnh : f ∉ s.history_list_ := fun hx => by
        have := (h.history_keys f).2 hx
        rw [hhm] at this
        exact Bool.noConfusion this
      have hfl : s.is_evictable_ f = false := by
        cases hfe : s.is_evictable_ f
        · rfl
        · exfalso
          have h1 := h.flag_count f hfe
          exact hnh ((h.history_count f).2 ⟨h1, by omega⟩)
      constructor
      · exact List.nodup_cons.2 ⟨hnh, h.history_nodup⟩
      · exact h.cache_nodup
      · intro g
        simp only [List.mem_cons, Function.update_apply]
        by_cases hg : g = f
        · simp [hg]
        · simp [hg, h.history_keys g]
      · exact h.cache_keys
      · intro g
        simp only [List.mem_cons, Function.update_apply]
        by_cases hg : g = f
        · simp [hg]; omega
        · simp [hg, h.history_count g]
      · intro g
        simp only [Function.update_apply]
        by_cases hg : g = f
        · simp [hg, hnc]; omega
        · simp [hg, h.cache_count g]
      · intro g
        simp only [Function.update_apply]
        by_cases hg : g = f
        · simp [hg]
        · simp only [hg, if_false]; exact h.flag_count g
      · simp only [List.countP_cons, hfl]
        simpa using hsz
      · intro g
        simp only [Function.update_apply]
        by_cases hg : g = f
        · intro _; rw [hg]; exact hf
        · simp only [hg, if_false]; exact h.typed g
    · simp only [hhm, Bool.true_eq_false, if_false, Outcome.state?, Option.some.injEq] at hs
      subst hs
      have hm : f ∈ s.history_list_ := (h.history_keys f).1 (by simpa using hhm)
      constructor
      · exact h.history_nodup
      · exact h.cache_nodup
      · exact h.history_keys
      · exact h.cache_keys
      · intro g
        simp only [Function.update_apply]
        by_cases hg : g = f
        · simp [hg, hm]; omega
        · simp [hg, h.history_count g]
      · intro g
        simp only [Function.update_apply]
        by_cases hg : g = f
        · simp [hg, hnc]; omega
        · simp [hg, h.cache_count g]
      · intro g
        simp only [Function.update_apply]
        by_cases hg : g = f
        · simp [hg]
        · simp only [hg, if_false]; exact h.flag_count g
      · exact hsz
      · intro g
        simp only [Function.update_apply]
        by_cases hg : g = f
        · intro _; rw [hg]; exact hf
        · simp only [hg, if_false]; exact h.typed g

theorem Inv.size_pos_of_history {s : LRUKReplacer} (h : Inv s) (f : Int)
    (hm : f ∈ s.history_list_) (he : s.is_evictable_ f = true) : 0 < s.curr_size_ := by
  have : 0 < s.history_list_.countP s.is_evictable_ := List.countP_pos_iff.2 ⟨f, hm, he⟩
  have := h.size
  omega

theorem Inv.size_pos_of_cache {s : LRUKReplacer} (h : Inv s) (f : Int)
    (hm : f ∈ s.cache_list_) (he : s.is_evictable_ f = true) : 0 < s.curr_size_ := by
  have : 0 < s.cache_list_.countP s.is_evictable_ := List.countP_pos_iff.2 ⟨f, hm, he⟩
  have := h.size
  omega

theorem find?_reverse_mem (p : Int → Bool) (l : List Int) (f : Int)
    (h : l.reverse.find? p = some f) : f ∈ l ∧ p f = true :=
  ⟨List.mem_reverse.1 (List.mem_of_find?_eq_some h), List.find?_some h⟩

theorem find?_reverse_none (p : Int → Bool) (l : List Int) :
    l.reverse.find? p = none ↔ ∀ x ∈ l, p x = false := by
  rw [List.find?_eq_none]
  constructor
  · intro h x hx
    have := h x (List.mem_reverse.2 hx)
    simpa using this
  · intro h x hx
    have := h x (List.mem_reverse.1 hx)
    simp [this]

theorem Evict_history {s : LRUKReplacer} (h : Inv s) (f : Int)
    (hfind : s.history_list_.reverse.find? (fun frame => s.is_evictable_ frame) = some f) :
    s.Evict = .returned (some f) (dropHistory s f) := by
  obtain ⟨hm, he⟩ := find?_reverse_mem _ _ _ hfind
  have hpos := h.size_pos_of_history f hm he
  unfold Evict
  rw [if_neg (by omega)]
  simp only [hfind, h.eraseVia_history f hm]
  rfl

theorem Evict_cache {s : LRUKReplacer} (h : Inv s) (f : Int)
    (hnone : s.history_list_.reverse.find? (fun frame => s.is_evictable_ frame) = none)
    (hfind : s.cache_list_.reverse.find? (fun frame => s.is_evictable_ frame) = some f) :
    s.Evict = .returned (some f) (dropCache s f) := by
  obtain ⟨hm, he⟩ := find?_reverse_mem _ _ _ hfind
  have hpos := h.size_pos_of_cache f hm he
  unfold Evict
  rw [if_neg (by omega)]
  simp only [hnone, hfind, h.eraseVia_cache f hm]
  rfl

theorem Evict_none {s : LRUKReplacer}
    (hnone : s.history_list_.reverse.find? (fun frame => s.is_evictable_ frame) = none)
    (hnone' : s.cache_list_.reverse.find? (fun frame => s.is_evictable_ frame) = none) :
    s.Evict = .returned none s := by
  unfold Evict
  by_cases h0 : s.curr_size_ = 0
  · rw [if_pos h0]
  · rw [if_neg h0]
    simp only [hnone, hnone']

theorem inv_Evict (s : LRUKReplacer) (h : Inv s) (s' : LRUKReplacer)
    (hs : s.Evict.state? = some s') : Inv s' := by
  cases hh : s.history_list_.reverse.find? (fun frame => s.is_evictable_ frame) with
  | some f =>
    rw [Evict_history h f hh] at hs
    simp only [Outcome.state?, Option.some.injEq] at hs
    subst hs
    obtain ⟨hm, he⟩ := find?_reverse_mem _ _ _ hh
    exact inv_dropHistory s f h hm he
  | none =>
    cases hc : s.cache_list_.reverse.find? (fun frame => s.is_evictable_ frame) with
    | some f =>
      rw [Evict_cache h f hh hc] at hs
      simp only [Outcome.state?, Option.some.injEq] at hs
      subst hs
      obtain ⟨hm, he⟩ := find?_reverse_mem _ _ _ hc
      exact inv_dropCache s f h hm he
    | none =>
      rw [Evict_none hh hc] at hs
      simp only [Outcome.state?, Option.some.injEq] at hs
      subst hs
      exact h

theorem Remove_history {s : LRUKReplacer} (h : Inv s) (f : Int)
    (hr : ¬ f > static_cast_int s.replacer_size_) (hm : f ∈ s.history_list_)
    (he : s.is_evictable_ f = true) : s.Remove f = .returned () (dropHistory s f) := by
  have hc := (h.history_count f).1 hm
  unfold Remove
  rw [if_neg hr]
  simp only []
  rw [if_neg (by omega), if_neg (by simp [he]), if_pos hc.2, h.eraseVia_history f hm]
  rfl

theorem Remove_cache {s : LRUKReplacer} (h : Inv s) (f : Int)
    (hr : ¬ f > static_cast_int s.replacer_size_) (hm : f ∈ s.cache_list_)
    (he : s.is_evictable_ f = true) : s.Remove f = .returned () (dropCache s f) := by
  have hc := (h.cache_count f).1 hm
  unfold Remove
  rw [if_neg hr]
  simp only []
  rw [if_neg (by omega), if_neg (by simp [he]), if_neg (by omega), h.eraseVia_cache f hm]
  rfl

theorem inv_Remove (s : LRUKReplacer) (f : Int) (h : Inv s) (s' : LRUKReplacer)
    (hs : (s.Remove f).state? = some s') : Inv s' := by
  by_cases hr : f > static_cast_int s.replacer_size_
  · unfold Remove at hs
    simp only [hr, if_true, Outcome.state?, Option.some.injEq] at hs
    subst hs; exact h
  by_cases hc : s.access_count_ f = 0
  · unfold Remove at hs
    simp only [hr, hc, if_true, if_false, Outcome.state?, Option.some.injEq] at hs
    subst hs; exact h
  cases he : s.is_evictable_ f with
  | false =>
    unfold Remove at hs
    simp only [hr, hc, he, if_true, if_false, Outcome.state?, Option.some.injEq] at hs
    subst hs; exact h
  | true =>
    have hcnt : 1 ≤ s.access_count_ f := Nat.pos_of_ne_zero hc
    by_cases hk : s.access_count_ f < s.k_
    · have hm : f ∈ s.history_list_ := (h.history_count f).2 ⟨hcnt, hk⟩
      rw [Remove_history h f hr hm he] at hs
      simp only [Outcome.state?, Option.some.injEq] at hs
      subst hs
      exact inv_dropHistory s f h hm he
    · have hm : f ∈ s.cache_list_ := (h.cache_count f).2 ⟨hcnt, by omega⟩
      rw [Remove_cache h f hr hm he] at hs
      simp only [Outcome.state?, Option.some.injEq] at hs
      subst hs
      exact inv_dropCache s f h hm he

theorem inv_after (s s' : LRUKReplacer) (c : Call) (h : Inv s) (ht : c.typed)
    (hs : c.after s = some s') : Inv s' := by
  cases c with
  | RecordAccess f => exact inv_RecordAccess s f h ht s' hs
  | SetEvictable f b => exact inv_SetEvictable s f b h s' hs
  | Evict => exact inv_Evict s h s' hs
  | Remove f => exact inv_Remove s f h s' hs

theorem Reachable.inv {num_frames k : Nat} {s : LRUKReplacer} (h : Reachable num_frames k s) :
    Inv s := by
  induction h with
  | construct => exact inv_construct num_frames k
  | call s s' c _ ht hs ih => exact inv_after s s' c ih ht hs

theorem RecordAccess_params (s s' : LRUKReplacer) (f : Int)
    (hs : (s.RecordAccess f).state? = some s') :
    s'.replacer_size_ = s.replacer_size_ ∧ s'.k_ = s.k_ := by
  unfold RecordAccess at hs
  simp only [] at hs
  split_ifs at hs
  all_goals first
    | (simp only [Outcome.state?, Option.some.injEq] at hs; subst hs; exact ⟨rfl, rfl⟩)
    | (split at hs
       · simp [Outcome.state?] at hs
       · simp only [Outcome.state?, Option.some.injEq] at hs; subst hs; exact ⟨rfl, rfl⟩)

theorem SetEvictable_params (s s' : LRUKReplacer) (f : Int) (b : Bool)
    (hs : (s.SetEvictable f b).state? = some s') :
    s'.replacer_size_ = s.replacer_size_ ∧ s'.k_ = s.k_ := by
  unfold SetEvictable at hs
  simp only [] at hs
  split_ifs at hs
  all_goals
    simp only [Outcome.state?, Option.some.injEq] at hs; subst hs; exact ⟨rfl, rfl⟩

theorem Remove_params (s s' : LRUKReplacer) (f : Int)
    (hs : (s.Remove f).state? = some s') :
    s'.replacer_size_ = s.replacer_size_ ∧ s'.k_ = s.k_ := by
  unfold Remove at hs
  simp only [] at hs
  split_ifs at hs
  all_goals first
    | (simp only [Outcome.state?, Option.some.injEq] at hs; subst hs; exact ⟨rfl, rfl⟩)
    | (split at hs
       · simp [Outcome.state?] at hs
       · simp only [Outcome.state?, Option.some.injEq] at hs; subst hs; exact ⟨rfl, rfl⟩)

theorem Evict_params (s s' : LRUKReplacer)
    (hs : s.Evict.state? = some s') :
    s'.replacer_size_ = s.replacer_size_ ∧ s'.k_ = s.k_ := by
  unfold Evict at hs
  split_ifs at hs
  · simp only [Outcome.state?, Option.some.injEq] at hs; subst hs; exact ⟨rfl, rfl⟩
  · split at hs
    · split at hs
      · simp [Outcome.state?] at hs
      · simp only [Outcome.state?, Option.some.injEq] at hs; subst hs; exact ⟨rfl, rfl⟩
    · split at hs
      · split at hs
        · simp [Outcome.state?] at hs
        · simp only [Outcome.state?, Option.some.injEq] at hs; subst hs; exact ⟨rfl, rfl⟩
      · simp only [Outcome.state?, Option.some.injEq] at hs; subst hs; exact ⟨rfl, rfl⟩

theorem after_params (s s' : LRUKReplacer) (c : Call) (hs : c.after s = some s') :
    s'.replacer_size_ = s.replacer_size_ ∧ s'.k_ = s.k_ := by
  cases c with
  | RecordAccess f => exact RecordAccess_params s s' f hs
  | SetEvictable f b => exact SetEvictable_params s s' f b hs
  | Evict => exact Evict_params s s' hs
  | Remove f => exact Remove_params s s' f hs

theorem Reachable.params {num_frames k : Nat} {s : LRUKReplacer} (h : Reachable num_frames k s) :
    s.replacer_size_ = num_frames ∧ s.k_ = k := by
  induction h with
  | construct => exact ⟨rfl, rfl⟩
  | call s s' c _ _ hs ih =>
    have := after_params s s' c hs
    exact ⟨this.1.trans ih.1, this.2.trans ih.2⟩

theorem Reachable.runCalls {num_frames k : Nat} (cs : List Call) :
    ∀ (s s' : LRUKReplacer), Reachable num_frames k s → (∀ c ∈ cs, c.typed) →
      runCalls s cs = some s' → Reachable num_frames k s' := by
  induction cs with
  | nil =>
    intro s s' h _ hs
    simp only [bustub.runCalls, Option.some.injEq] at hs
    subst hs; exact h
  | cons c cs ih =>
    intro s s' h ht hs
    simp only [bustub.runCalls] at hs
    cases hc : c.after s with
    | none => rw [hc] at hs; simp at hs
    | some s1 =>
      rw [hc] at hs
      simp only [Option.some_bind] at hs
      exact ih s1 s' (Reachable.call s s1 c h (ht c (List.mem_cons_self _ _)) hc)
        (fun c' hc' => ht c' (List.mem_cons_of_mem _ hc')) hs

theorem Evict_cases {s : LRUKReplacer} (h : Inv s) :
    (∃ f, f ∈ s.history_list_ ∧ s.is_evictable_ f = true
        ∧ s.Evict = .returned (some f) (dropHistory s f))
    ∨ (∃ f, f ∈ s.cache_list_ ∧ s.is_evictable_ f = true
        ∧ (∀ x ∈ s.history_list_, s.is_evictable_ x = false)
        ∧ s.Evict = .returned (some f) (dropCache s f))
    ∨ ((∀ x ∈ s.history_list_, s.is_evictable_ x = false)
        ∧ (∀ x ∈ s.cache_list_, s.is_evictable_ x = false)
        ∧ s.Evict = .returned none s) := by
  cases hh : s.history_list_.reverse.find? (fun frame => s.is_evictable_ frame) with
  | some f =>
    obtain ⟨hm, he⟩ := find?_reverse_mem _ _ _ hh
    exact Or.inl ⟨f, hm, he, Evict_history h f hh⟩
  | none =>
    have hno := (find?_reverse_none _ _).1 hh
    cases hc : s.cache_list_.reverse.find? (fun frame => s.is_evictable_ frame) with
    | some f =>
      obtain ⟨hm, he⟩ := find?_reverse_mem _ _ _ hc
      exact Or.inr (Or.inl ⟨f, hm, he, hno, Evict_cache h f hh hc⟩)
    | none =>
      exact Or.inr (Or.inr ⟨hno, (find?_reverse_none _ _).1 hc, Evict_none hh hc⟩)

theorem tierScenario_reachable : Reachable 3 2 tierScenario :=
  Reachable.runCalls tierCalls _ _ Reachable.construct (by decide) (by rfl)

theorem singleScenario_reachable : Reachable 3 2 singleScenario :=
  Reachable.runCalls singleCalls _ _ Reachable.construct (by decide) (by rfl)

theorem pinnedScenario_reachable : Reachable 3 2 pinnedScenario :=
  Reachable.runCalls pinnedCalls _ _ Reachable.construct (by decide) (by rfl)

/-- C1. In every reachable state (any `k ≥ 1`) whose history list holds a frame flagged
evictable, `Evict` succeeds and the frame it returns is in the history list, with an access
count below `k`, whatever the cache list holds. -/
theorem C1_evict_prefers_history (num_frames k : Nat) (_hk : 1 ≤ k) (s : LRUKReplacer)
    (hs : Reachable num_frames k s)
    (hex : ∃ f, f ∈ s.history_list_ ∧ s.is_evictable_ f = true) :
    ∃ f s', s.Evict = .returned (some f) s' ∧ f ∈ s.history_list_
      ∧ s.access_count_ f < k ∧ f ∉ s.cache_list_ := by
  have h := hs.inv
  obtain ⟨g, hg, hge⟩ := hex
  rcases Evict_cases h with ⟨f, hm, _, hev⟩ | ⟨_, _, _, hno, _⟩ | ⟨hno, _, _⟩
  · refine ⟨f, dropHistory s f, hev, hm, ?_, fun hx => h.not_mem_both f ⟨hm, hx⟩⟩
    have := ((h.history_count f).1 hm).2
    rw [hs.params.2] at this
    exact this
  · rw [hno g hg] at hge; exact Bool.noConfusion hge
  · rw [hno g hg] at hge; exact Bool.noConfusion hge

/-- Witness of C1: with `k = 2`, after two accesses of frame 1, one access of frame 2 and both
marked evictable, `Evict` returns frame 2. -/
theorem C1_evict_prefers_history_witness :
    Reachable 3 2 tierScenario
      ∧ (∃ f, f ∈ tierScenario.history_list_ ∧ tierScenario.is_evictable_ f = true)
      ∧ tierScenario.cache_list_ = [1] ∧ tierScenario.is_evictable_ 1 = true
      ∧ tierScenario.Evict.value? = some (some 2)
      ∧ ∃ f s', tierScenario.Evict = .returned (some f) s' ∧ f ∈ tierScenario.history_list_
          ∧ tierScenario.access_count_ f < 2 ∧ f ∉ tierScenario.cache_list_ :=
  ⟨tierScenario_reachable, ⟨2, by decide, by decide⟩, by decide, by decide, by decide,
    C1_evict_prefers_history 3 2 (by decide) tierScenario tierScenario_reachable
      ⟨2, by decide, by decide⟩⟩

/-- C2. In every state, reachable or not, when `Evict` succeeds with frame `f`, the evictable
flag of `f` was set before the call and `f` was in the history list or in the cache list. -/
theorem C2_evict_returns_evictable (s s' : LRUKReplacer) (f : Int)
    (h : s.Evict = .returned (some f) s') :
    s.is_evictable_ f = true ∧ (f ∈ s.history_list_ ∨ f ∈ s.cache_list_) := by
  unfold Evict at h
  split_ifs at h
  · simp at h
  · split at h
    · rename_i frame hfind
      obtain ⟨hm, he⟩ := find?_reverse_mem _ _ _ hfind
      split at h
      · simp at h
      · simp only [Outcome.returned.injEq, Option.some.injEq] at h
        rw [← h.1]
        exact ⟨he, Or.inl hm⟩
    · split at h
      · rename_i frame hfind
        obtain ⟨hm, he⟩ := find?_reverse_mem _ _ _ hfind
        split at h
        · simp at h
        · simp only [Outcome.returned.injEq, Option.some.injEq] at h
          rw [← h.1]
          exact ⟨he, Or.inr hm⟩
      · simp at h

/-- Witness of C2: frame 0, accessed once and marked evictable, is the frame `Evict` returns. -/
theorem C2_evict_returns_evictable_witness :
    singleScenario.Evict = .returned (some 0) (dropHistory singleScenario 0)
      ∧ singleScenario.is_evictable_ 0 = true
      ∧ (0 ∈ singleScenario.history_list_ ∨ 0 ∈ singleScenario.cache_list_) :=
  ⟨by rfl, C2_evict_returns_evictable singleScenario (dropHistory singleScenario 0) 0 (by rfl)⟩

/-- C3. In every reachable state, when `Evict` succeeds with frame `f`, afterwards the access
count of `f` is 0, its flag is cleared, `f` is in neither list and `Size()` is one less; every
other frame keeps its count and flag, and both lists are the former lists without `f`, in the
same order. -/
theorem C3_evict_postcondition (num_frames k : Nat) (s s' : LRUKReplacer) (f : Int)
    (hs : Reachable num_frames k s) (hev : s.Evict = .returned (some f) s') :
    s'.access_count_ f = 0 ∧ s'.is_evictable_ f = false
      ∧ f ∉ s'.history_list_ ∧ f ∉ s'.cache_list_
      ∧ s'.Size + 1 = s.Size
      ∧ (∀ g, g ≠ f → s'.access_count_ g = s.access_count_ g
          ∧ s'.is_evictable_ g = s.is_evictable_ g)
      ∧ s'.history_list_ = s.history_list_.filter (fun g => g != f)
      ∧ s'.cache_list_ = s.cache_list_.filter (fun g => g != f) := by
  have h := hs.inv
  have hsz := h.size_le
  rcases Evict_cases h with ⟨f0, hm, he, hev0⟩ | ⟨f0, hm, he, _, hev0⟩ | ⟨_, _, hev0⟩
  · rw [hev0] at hev
    simp only [Outcome.returned.injEq, Option.some.injEq] at hev
    obtain ⟨hf, hs'⟩ := hev
    subst hf; subst hs'
    have hnc : f0 ∉ s.cache_list_ := fun hx => h.not_mem_both f0 ⟨hm, hx⟩
    have hpos := h.size_pos_of_history f0 hm he
    refine ⟨by simp [dropHistory], by simp [dropHistory], h.history_nodup.not_mem_erase, hnc,
      decr_eq _ hpos (by omega), ?_, h.history_nodup.erase_eq_filter f0, ?_⟩
    · intro g hg
      simp [dropHistory, Function.update_noteq hg]
    · symm
      apply List.filter_eq_self.2
      intro a ha
      have : a ≠ f0 := fun e => hnc (e ▸ ha)
      simpa using this
  · rw [hev0] at hev
    simp only [Outcome.returned.injEq, Option.some.injEq] at hev
    obtain ⟨hf, hs'⟩ := hev
    subst hf; subst hs'
    have hnh : f0 ∉ s.history_list_ := fun hx => h.not_mem_both f0 ⟨hx, hm⟩
    have hpos := h.size_pos_of_cache f0 hm he
    refine ⟨by simp [dropCache], by simp [dropCache], hnh, h.cache_nodup.not_mem_erase,
      decr_eq _ hpos (by omega), ?_, ?_, h.cache_nodup.erase_eq_filter f0⟩
    · intro g hg
      simp [dropCache, Function.update_noteq hg]
    · symm
      apply List.filter_eq_self.2
      intro a ha
      have : a ≠ f0 := fun e => hnh (e ▸ ha)
      simpa using this
  · rw [hev0] at hev
    simp at hev

/-- Witness of C3: with `k = 2` and `num_frames = 3`, after one access of frame 0 and marking it
evictable, `Size()` is 1, `Evict` returns frame 0 and `Size()` is 0 afterwards. -/
theorem C3_evict_postcondition_witness :
    Reachable 3 2 singleScenario ∧ singleScenario.Size = 1
      ∧ singleScenario.Evict = .returned (some 0) (dropHistory singleScenario 0)
      ∧ (dropHistory singleScenario 0).Size = 0
      ∧ (dropHistory singleScenario 0).access_count_ 0 = 0
      ∧ (dropHistory singleScenario 0).is_evictable_ 0 = false
      ∧ (0 : Int) ∉ (dropHistory singleScenario 0).history_list_
      ∧ (0 : Int) ∉ (dropHistory singleScenario 0).cache_list_
      ∧ (dropHistory singleScenario 0).Size + 1 = singleScenario.Size :=
  have h := C3_evict_postcondition 3 2 singleScenario (dropHistory singleScenario 0) 0
    singleScenario_reachable (by rfl)
  ⟨singleScenario_reachable, by decide, by rfl, by decide, h.1, h.2.1, h.2.2.1, h.2.2.2.1,
    h.2.2.2.2.1⟩

/-- C4. In every reachable state (any `k ≥ 1`) `Evict` returns, and it reports failure exactly
when no frame of the history list or the cache list is flagged evictable, which is exactly when
`Size()` is 0; a failing `Evict` reports no frame and leaves the state as it was. -/
theorem C4_evict_fails_iff_nothing_evictable (num_frames k : Nat) (_hk : 1 ≤ k)
    (s : LRUKReplacer) (hs : Reachable num_frames k s) :
    (∃ r s', s.Evict = .returned r s')
      ∧ ((∃ s', s.Evict = .returned none s')
          ↔ ∀ f, f ∈ s.history_list_ ∨ f ∈ s.cache_list_ → s.is_evictable_ f = false)
      ∧ ((∃ s', s.Evict = .returned none s') ↔ s.Size = 0)
      ∧ (∀ s', s.Evict = .returned none s' → s' = s) := by
  have h := hs.inv
  have hsize := h.size
  rcases Evict_cases h with ⟨f0, hm, he, hev0⟩ | ⟨f0, hm, he, _, hev0⟩ | ⟨hnh, hnc, hev0⟩
  · have hpos := h.size_pos_of_history f0 hm he
    refine ⟨⟨_, _, hev0⟩, ?_, ?_, ?_⟩
    · constructor
      · rintro ⟨s', hs'⟩; rw [hev0] at hs'; simp at hs'
      · intro hall
        have := hall f0 (Or.inl hm)
        rw [he] at this; exact Bool.noConfusion this
    · constructor
      · rintro ⟨s', hs'⟩; rw [hev0] at hs'; simp at hs'
      · intro h0; unfold Size at h0; omega
    · intro s' hs'; rw [hev0] at hs'; simp at hs'
  · have hpos := h.size_pos_of_cache f0 hm he
    refine ⟨⟨_, _, hev0⟩, ?_, ?_, ?_⟩
    · constructor
      · rintro ⟨s', hs'⟩; rw [hev0] at hs'; simp at hs'
      · intro hall
        have := hall f0 (Or.inr hm)
        rw [he] at this; exact Bool.noConfusion this
    · constructor
      · rintro ⟨s', hs'⟩; rw [hev0] at hs'; simp at hs'
      · intro h0; unfold Size at h0; omega
    · intro s' hs'; rw [hev0] at hs'; simp at hs'
  · have h1 : s.history_list_.countP s.is_evictable_ = 0 :=
      List.countP_eq_zero.2 (fun x hx => by simp [hnh x hx])
    have h2 : s.cache_list_.countP s.is_evictable_ = 0 :=
      List.countP_eq_zero.2 (fun x hx => by simp [hnc x hx])
    refine ⟨⟨_, _, hev0⟩, ?_, ?_, ?_⟩
    · constructor
      · intro _ f hf
        rcases hf with hf | hf
        · exact hnh f hf
        · exact hnc f hf
      · intro _; exact ⟨s, hev0⟩
    · constructor
      · intro _; unfold Size; omega
      · intro _; exact ⟨s, hev0⟩
    · intro s' hs'
      rw [hev0] at hs'
      simp only [Outcome.returned.injEq, true_and] at hs'
      exact hs'.symm

/-- Witness of C4: in the pinned scenario no frame is evictable, `Size()` is 0 and `Evict`
fails; in the single-frame scenario `Size()` is 1 and `Evict` does not fail. -/
theorem C4_evict_fails_iff_nothing_evictable_witness :
    Reachable 3 2 pinnedScenario ∧ Reachable 3 2 singleScenario
      ∧ pinnedScenario.Evict = .returned none pinnedScenario ∧ pinnedScenario.Size = 0
      ∧ ((∃ s', pinnedScenario.Evict = .returned none s') ↔ pinnedScenario.Size = 0)
      ∧ ((∃ s', singleScenario.Evict = .returned none s') ↔ singleScenario.Size = 0) :=
  ⟨pinnedScenario_reachable, singleScenario_reachable, by rfl, by decide,
    (C4_evict_fails_iff_nothing_evictable 3 2 (by decide) pinnedScenario
      pinnedScenario_reachable).2.2.1,
    (C4_evict_fails_iff_nothing_evictable 3 2 (by decide) singleScenario
      singleScenario_reachable).2.2.1⟩

theorem Inv.flagged_eq {s : LRUKReplacer} (h : Inv s) :
    {f : Int | s.is_evictable_ f = true}
      = ↑((s.history_list_ ++ s.cache_list_).filter s.is_evictable_).toFinset := by
  ext f
  simp only [Set.mem_setOf_eq, List.coe_toFinset, List.mem_filter, List.mem_append]
  constructor
  · intro he
    refine ⟨?_, he⟩
    have hc := h.flag_count f he
    by_cases hk : s.access_count_ f < s.k_
    · exact Or.inl ((h.history_count f).2 ⟨hc, hk⟩)
    · exact Or.inr ((h.cache_count f).2 ⟨hc, by omega⟩)
  · intro hx
    exact hx.2

theorem Inv.tracked_nodup {s : LRUKReplacer} (h : Inv s) :
    (s.history_list_ ++ s.cache_list_).Nodup :=
  List.nodup_append.2 ⟨h.history_nodup, h.cache_nodup,
    fun _ hx hy => h.not_mem_both _ ⟨hx, hy⟩⟩

/-- C5. In every state reachable from construction by calls of `RecordAccess`, `SetEvictable`,
`Evict` and `Remove`, the throwing ones included, the frames flagged evictable are finitely many,
`Size()` is their number, and each of them is in the history list or in the cache list. -/
theorem C5_size_counts_evictable (num_frames k : Nat) (s : LRUKReplacer)
    (hs : Reachable num_frames k s) :
    {f : Int | s.is_evictable_ f = true}.Finite
      ∧ s.Size = {f : Int | s.is_evictable_ f = true}.ncard
      ∧ (∀ f, s.is_evictable_ f = true → f ∈ s.history_list_ ∨ f ∈ s.cache_list_) := by
  have h := hs.inv
  have heq := h.flagged_eq
  refine ⟨?_, ?_, ?_⟩
  · rw [heq]; exact Finset.finite_toSet _
  · rw [heq, Set.ncard_coe_Finset, List.toFinset_card_of_nodup (h.tracked_nodup.filter _),
      ← List.countP_eq_length_filter, List.countP_append]
    exact h.size
  · intro f he
    have hc := h.flag_count f he
    by_cases hk : s.access_count_ f < s.k_
    · exact Or.inl ((h.history_count f).2 ⟨hc, hk⟩)
    · exact Or.inr ((h.cache_count f).2 ⟨hc, by omega⟩)

/-- Witness of C5: the freshly constructed replacer has `Size()` 0, and in the tier scenario,
where frames 1 and 2 are flagged, `Size()` is 2. -/
theorem C5_size_counts_evictable_witness :
    Reachable 3 2 tierScenario ∧ (construct 3 2).Size = 0 ∧ tierScenario.Size = 2
      ∧ tierScenario.Size = {f : Int | tierScenario.is_evictable_ f = true}.ncard :=
  ⟨tierScenario_reachable, by decide, by decide,
    (C5_size_counts_evictable 3 2 tierScenario tierScenario_reachable).2.1⟩

/-- C6. In every reachable state with `k ≥ 1`, each frame id is in exactly one of three cases:
access count 0 and in neither list; access count in `[1, k-1]`, once in the history list and
not in the cache list; access count at least `k`, once in the cache list and not in the
history list. No frame is in both lists and neither list has duplicates. -/
theorem C6_membership_by_count (num_frames k : Nat) (hk : 1 ≤ k) (s : LRUKReplacer)
    (hs : Reachable num_frames k s) :
    (∀ f,
      ((s.access_count_ f = 0 ∧ f ∉ s.history_list_ ∧ f ∉ s.cache_list_)
        ∨ (1 ≤ s.access_count_ f ∧ s.access_count_ f ≤ k - 1
            ∧ s.history_list_.count f = 1 ∧ f ∉ s.cache_list_)
        ∨ (k ≤ s.access_count_ f ∧ s.cache_list_.count f = 1 ∧ f ∉ s.history_list_))
      ∧ ¬ (s.access_count_ f = 0 ∧ 1 ≤ s.access_count_ f ∧ s.access_count_ f ≤ k - 1)
      ∧ ¬ (s.access_count_ f = 0 ∧ k ≤ s.access_count_ f)
      ∧ ¬ ((1 ≤ s.access_count_ f ∧ s.access_count_ f ≤ k - 1) ∧ k ≤ s.access_count_ f))
    ∧ (∀ f, ¬ (f ∈ s.history_list_ ∧ f ∈ s.cache_list_))
    ∧ s.history_list_.Nodup ∧ s.cache_list_.Nodup := by
  have h := hs.inv
  have hkk := hs.params.2
  refine ⟨fun f => ⟨?_, by omega, by omega, by omega⟩, h.not_mem_both, h.history_nodup,
    h.cache_nodup⟩
  have hh := h.history_count f
  have hc := h.cache_count f
  rw [hkk] at hh hc
  by_cases h0 : s.access_count_ f = 0
  · refine Or.inl ⟨h0, fun hx => ?_, fun hx => ?_⟩
    · have := hh.1 hx; omega
    · have := hc.1 hx; omega
  · by_cases hlt : s.access_count_ f < k
    · have hm : f ∈ s.history_list_ := hh.2 ⟨by omega, hlt⟩
      refine Or.inr (Or.inl ⟨by omega, by omega, List.count_eq_one_of_mem h.history_nodup hm,
        fun hx => ?_⟩)
      have := hc.1 hx; omega
    · have hm : f ∈ s.cache_list_ := hc.2 ⟨by omega, by omega⟩
      refine Or.inr (Or.inr ⟨by omega, List.count_eq_one_of_mem h.cache_nodup hm, fun hx => ?_⟩)
      have := hh.1 hx; omega

/-- Witness of C6: in the tier scenario (`k = 2`) frame 0 is untracked, frame 2 has count 1 and
is in the history list, frame 1 has count 2 and is in the cache list. -/
theorem C6_membership_by_count_witness :
    Reachable 3 2 tierScenario ∧ tierScenario.access_count_ 0 = 0 ∧ tierScenario.access_count_ 2 = 1
      ∧ tierScenario.access_count_ 1 = 2
      ∧ tierScenario.history_list_ = [2] ∧ tierScenario.cache_list_ = [1]
      ∧ (∀ f, ¬ (f ∈ tierScenario.history_list_ ∧ f ∈ tierScenario.cache_list_))
      ∧ tierScenario.history_list_.Nodup ∧ tierScenario.cache_list_.Nodup :=
  ⟨tierScenario_reachable, by decide, by decide, by decide, by decide, by decide,
    (C6_membership_by_count 3 2 (by decide) tierScenario tierScenario_reachable).2⟩

theorem in_range_passes (num_frames : Nat) (f : Int) (hn : num_frames < 2 ^ 31) (_h0 : 0 ≤ f)
    (hf : f < num_frames) : ¬ f > static_cast_int num_frames := by
  unfold static_cast_int
  have h1 : num_frames % 2 ^ 32 = num_frames := Nat.mod_eq_of_lt (by omega)
  rw [h1, if_pos hn]
  omega

theorem range_check_throws (s : LRUKReplacer) (f : Int) (b : Bool)
    (hr : f > static_cast_int s.replacer_size_) :
    s.RecordAccess f = .thrown .InvalidFrame s ∧ s.SetEvictable f b = .thrown .InvalidFrame s
      ∧ s.Remove f = .thrown .InvalidFrame s := by
  refine ⟨?_, ?_, ?_⟩
  · unfold RecordAccess; rw [if_pos hr]
  · unfold SetEvictable; rw [if_pos hr]
  · unfold Remove; rw [if_pos hr]

/-- C7. The range check does not reject every id outside `[0, num_frames)`: with
`num_frames = 3` and `k = 2` the ids 3 and -1 pass it. `RecordAccess(3)` and `RecordAccess(-1)`
return and put the id into the history list, `SetEvictable(3, true)` then raises `Size()` to 1,
`Evict` hands out frame 3, and `Remove(3)` returns as well; only ids above `num_frames`
are rejected. -/
theorem C7_range_check_admits_edge_ids :
    ((construct 3 2).RecordAccess 3).value? = some ()
      ∧ (((construct 3 2).RecordAccess 3).state?.map (fun s => s.history_list_)) = some [3]
      ∧ ((construct 3 2).RecordAccess (-1)).value? = some ()
      ∧ (((construct 3 2).RecordAccess (-1)).state?.map (fun s => s.history_list_)) = some [-1]
      ∧ ((afterCalls (construct 3 2) [.RecordAccess 3]).SetEvictable 3 true).value? = some ()
      ∧ (afterCalls (construct 3 2) [.RecordAccess 3, .SetEvictable 3 true]).Size = 1
      ∧ (afterCalls (construct 3 2) [.RecordAccess 3, .SetEvictable 3 true]).Evict.value?
          = some (some 3)
      ∧ ((afterCalls (construct 3 2) [.RecordAccess 3, .SetEvictable 3 true]).Remove 3).value?
          = some ()
      ∧ (afterCalls (construct 3 2) [.RecordAccess 3, .SetEvictable 3 true, .Remove 3]).Size = 0
      ∧ (construct 3 2).RecordAccess 4 = .thrown .InvalidFrame (construct 3 2) := by
  refine ⟨by decide, by decide, by decide, by decide, by decide, by decide, by decide,
    by decide, by decide, by rfl⟩

/-- C8. In every state, for a frame id that passes the range check, `Remove` throws at its
evictable check exactly when the access count of the frame is not 0 and its flag is not set;
a `Remove` that throws leaves the state as it was. -/
theorem C8_remove_pinned_throws (s : LRUKReplacer) (f : Int)
    (hr : ¬ f > static_cast_int s.replacer_size_) :
    ((∃ s', s.Remove f = .thrown .NotEvictable s')
        ↔ (s.access_count_ f ≠ 0 ∧ s.is_evictable_ f = false))
      ∧ (∀ e s', s.Remove f = .thrown e s' → s' = s ∧ e = .NotEvictable) := by
  unfold Remove
  simp only [hr, if_false]
  by_cases hc : s.access_count_ f = 0
  · simp [hc]
  · cases he : s.is_evictable_ f with
    | false => simp [hc]
    | true =>
      simp only [hc, if_false, ne_eq, not_false_eq_true, true_and, Bool.true_eq_false]
      by_cases hk : s.access_count_ f < s.k_
      · simp only [hk, if_true]
        cases eraseVia s.history_map_ s.history_list_ f <;> simp
      · simp only [hk, if_false]
        cases eraseVia s.cache_map_ s.cache_list_ f <;> simp

/-- Witness of C8: frame 0, accessed once and not marked evictable, cannot be removed, and the
state after the failed `Remove` is the state before it. -/
theorem C8_remove_pinned_throws_witness :
    ¬ (0 : Int) > static_cast_int pinnedScenario.replacer_size_
      ∧ pinnedScenario.access_count_ 0 = 1 ∧ pinnedScenario.is_evictable_ 0 = false
      ∧ pinnedScenario.Remove 0 = .thrown .NotEvictable pinnedScenario
      ∧ ((∃ s', pinnedScenario.Remove 0 = .thrown .NotEvictable s')
          ↔ (pinnedScenario.access_count_ 0 ≠ 0 ∧ pinnedScenario.is_evictable_ 0 = false)) :=
  ⟨by decide, by decide, by decide, by rfl,
    (C8_remove_pinned_throws pinnedScenario 0 (by decide)).1⟩

/-- In every state, for a frame id that passes the range check and has access count 0,
`SetEvictable` with either flag returns without an error and leaves the whole state as it was;
`Size()` and the flag of the frame are what they were. -/
theorem SetEvictable_untracked_noop (s : LRUKReplacer) (f : Int) (b : Bool)
    (hr : ¬ f > static_cast_int s.replacer_size_) (hc : s.access_count_ f = 0) :
    s.SetEvictable f b = .returned () s
      ∧ ∀ s', (s.SetEvictable f b).state? = some s' →
          s' = s ∧ s'.Size = s.Size ∧ s'.is_evictable_ f = s.is_evictable_ f := by
  have h : s.SetEvictable f b = .returned () s := by
    unfold SetEvictable
    rw [if_neg hr, if_pos hc]
  refine ⟨h, ?_⟩
  intro s' hs'
  rw [h] at hs'
  simp only [Outcome.state?, Option.some.injEq] at hs'
  subst hs'
  exact ⟨rfl, rfl, rfl⟩

/-- On the fresh replacer (`num_frames = 3`) marking the untouched frame 1 evictable changes
nothing, `Size()` stays 0 and the flag stays false. -/
theorem SetEvictable_untracked_noop_example :
    ¬ (1 : Int) > static_cast_int (construct 3 2).replacer_size_
      ∧ (construct 3 2).access_count_ 1 = 0
      ∧ (construct 3 2).SetEvictable 1 true = .returned () (construct 3 2)
      ∧ (construct 3 2).Size = 0 ∧ (construct 3 2).is_evictable_ 1 = false :=
  ⟨by decide, by decide,
    (SetEvictable_untracked_noop (construct 3 2) 1 true (by decide) (by decide)).1,
    by decide, by decide⟩

theorem SetEvictable_untracked_noop_in_range (s : LRUKReplacer) (f : Int) (b : Bool)
    (hn : s.replacer_size_ < 2 ^ 31) (h0 : 0 ≤ f) (hf : f < s.replacer_size_)
    (hc : s.access_count_ f = 0) : s.SetEvictable f b = .returned () s :=
  (SetEvictable_untracked_noop s f b (in_range_passes s.replacer_size_ f hn h0 hf) hc).1

/-- C9. The range check rejects ids of `[0, num_frames)` once `static_cast<int>(replacer_size_)`
wraps. On the fresh `LRUKReplacer(2^31, 2)` the cast is `-2^31`; frame 0 lies in
`[0, num_frames)` and has access count 0, yet `SetEvictable(0, b)` throws at the range check for
both flags instead of returning. With `num_frames = 2^31 - 1` the same call returns and leaves
the state as it was. -/
theorem C9_setEvictable_in_range_throws_at_wrapped_cast :
    Reachable (2 ^ 31) 2 (construct (2 ^ 31) 2)
      ∧ (0 : Int) ≤ 0 ∧ (0 : Int) < ((construct (2 ^ 31) 2).replacer_size_ : Int)
      ∧ (construct (2 ^ 31) 2).access_count_ 0 = 0
      ∧ static_cast_int (construct (2 ^ 31) 2).replacer_size_ = -(2 ^ 31)
      ∧ (construct (2 ^ 31) 2).SetEvictable 0 true
          = .thrown .InvalidFrame (construct (2 ^ 31) 2)
      ∧ (construct (2 ^ 31) 2).SetEvictable 0 false
          = .thrown .InvalidFrame (construct (2 ^ 31) 2)
      ∧ (construct (2 ^ 31 - 1) 2).SetEvictable 0 true
          = .returned () (construct (2 ^ 31 - 1) 2) :=
  ⟨Reachable.construct, by decide, by decide, by decide, by decide, by rfl, by rfl, by rfl⟩

theorem SetEvictable_tracked (s : LRUKReplacer) (f : Int) (b : Bool)
    (hr : ¬ f > static_cast_int s.replacer_size_) (hc : s.access_count_ f ≠ 0) :
    s.SetEvictable f b = .returned ()
      { s with
        curr_size_ :=
          if s.is_evictable_ f = true ∧ b = false then
            decr (if s.is_evictable_ f = false ∧ b = true then incr s.curr_size_
              else s.curr_size_)
          else (if s.is_evictable_ f = false ∧ b = true then incr s.curr_size_
            else s.curr_size_)
        is_evictable_ := Function.update s.is_evictable_ f b } := by
  unfold SetEvictable
  rw [if_neg hr, if_neg hc]

/-- C10. In every state, for a frame id that passes the range check and has a positive access
count, `SetEvictable(f, b)` returns; afterwards the flag of `f` is `b`; `Size()` went through
the `size_t` increment when the flag went from false to true (so it is up by 1 unless it was
`2^64 - 1`), through the `size_t` decrement when the flag went from true to false (so it is down
by 1 unless it was 0) and is unchanged otherwise; access counts, both lists, both maps and the
flags of all other frames are unchanged; a second `SetEvictable(f, b)` changes nothing. -/
theorem C10_setEvictable_tracked (s : LRUKReplacer) (f : Int) (b : Bool)
    (hr : ¬ f > static_cast_int s.replacer_size_) (hc : 0 < s.access_count_ f) :
    ∃ s', s.SetEvictable f b = .returned () s'
      ∧ s'.is_evictable_ f = b
      ∧ (s.is_evictable_ f = false → b = true →
          s'.Size = incr s.Size ∧ (s.Size + 1 < 2 ^ 64 → s'.Size = s.Size + 1))
      ∧ (s.is_evictable_ f = true → b = false →
          s'.Size = decr s.Size ∧ (0 < s.Size → s.Size < 2 ^ 64 → s'.Size + 1 = s.Size))
      ∧ (s.is_evictable_ f = b → s'.Size = s.Size)
      ∧ s'.access_count_ = s.access_count_
      ∧ s'.history_list_ = s.history_list_ ∧ s'.cache_list_ = s.cache_list_
      ∧ s'.history_map_ = s.history_map_ ∧ s'.cache_map_ = s.cache_map_
      ∧ s'.replacer_size_ = s.replacer_size_ ∧ s'.k_ = s.k_
      ∧ (∀ g, g ≠ f → s'.is_evictable_ g = s.is_evictable_ g)
      ∧ s'.SetEvictable f b = .returned () s' := by
  have hc' : s.access_count_ f ≠ 0 := by omega
  refine ⟨_, SetEvictable_tracked s f b hr hc', ?_, ?_, ?_, ?_, rfl, rfl, rfl, rfl, rfl, rfl, rfl,
    ?_, ?_⟩
  · simp
  · intro he hb
    simp only [Size, he, hb]
    refine ⟨by simp, fun hlt => ?_⟩
    simp only [and_self, if_true, Bool.false_eq_true, Bool.true_eq_false, and_false, if_false]
    exact incr_eq _ hlt
  · intro he hb
    simp only [Size, he, hb]
    refine ⟨by simp, fun hpos hlt => ?_⟩
    simp only [and_self, if_true, Bool.false_eq_true, Bool.true_eq_false, and_false, false_and,
      if_false]
    exact decr_eq _ hpos hlt
  · intro he
    simp only [Size]
    cases b <;> simp [he]
  · intro g hg
    simp [Function.update_noteq hg]
  · unfold SetEvictable
    simp only [Function.update_same, Function.update_idem]
    rw [if_neg hr, if_neg hc']
    cases b <;> simp

/-- Witness of C10: in the pinned scenario frame 0 has access count 1 and is not flagged;
`SetEvictable(0, true)` takes `Size()` from 0 to 1, and doing it again changes nothing. -/
theorem C10_setEvictable_tracked_witness :
    ¬ (0 : Int) > static_cast_int pinnedScenario.replacer_size_
      ∧ pinnedScenario.access_count_ 0 = 1 ∧ pinnedScenario.Size = 0
      ∧ (afterCalls pinnedScenario [.SetEvictable 0 true]).Size = 1
      ∧ (afterCalls pinnedScenario [.SetEvictable 0 true, .SetEvictable 0 true]).Size = 1
      ∧ ∃ s', pinnedScenario.SetEvictable 0 true = .returned () s'
          ∧ s'.is_evictable_ 0 = true
          ∧ (pinnedScenario.is_evictable_ 0 = false → true = true →
              s'.Size = incr pinnedScenario.Size
                ∧ (pinnedScenario.Size + 1 < 2 ^ 64 → s'.Size = pinnedScenario.Size + 1))
          ∧ s'.SetEvictable 0 true = .returned () s' := by
  refine ⟨by decide, by decide, by decide, by decide, by decide, ?_⟩
  obtain ⟨s', h1, h2, h3, _, _, _, _, _, _, _, _, _, _, h4⟩ :=
    C10_setEvictable_tracked pinnedScenario 0 true (by decide) (by decide)
  exact ⟨s', h1, h2, h3, h4⟩

theorem RecordAccess_cases {s : LRUKReplacer} (h : Inv s) (f : Int)
    (hr : ¬ f > static_cast_int s.replacer_size_) :
    (s.access_count_ f + 1 = s.k_ ∧ f ∉ s.history_list_ ∧ s.RecordAccess f = .undefined)
    ∨ ∃ s', s.RecordAccess f = .returned () s'
        ∧ s'.access_count_ = Function.update s.access_count_ f (s.access_count_ f + 1)
        ∧ s'.is_evictable_ = s.is_evictable_ ∧ s'.curr_size_ = s.curr_size_
        ∧ s'.replacer_size_ = s.replacer_size_ ∧ s'.k_ = s.k_
        ∧ ((s.access_count_ f + 1 = s.k_ ∧ f ∈ s.history_list_
              ∧ s'.history_list_ = s.history_list_.erase f
              ∧ s'.cache_list_ = f :: s.cache_list_)
          ∨ (s.access_count_ f + 1 > s.k_ ∧ s'.history_list_ = s.history_list_
              ∧ s'.cache_list_ = f :: s.cache_list_.erase f)
          ∨ (s.access_count_ f + 1 < s.k_ ∧ s'.cache_list_ = s.cache_list_
              ∧ s'.history_list_
                = if s.access_count_ f = 0 then f :: s.history_list_ else s.history_list_)) := by
  unfold RecordAccess
  rw [if_neg hr]
  simp only []
  by_cases hk : s.access_count_ f + 1 = s.k_
  · rw [if_pos hk]
    by_cases hm : f ∈ s.history_list_
    · right
      rw [h.eraseVia_history f hm]
      exact ⟨_, rfl, rfl, rfl, rfl, rfl, rfl, Or.inl ⟨hk, hm, rfl, rfl⟩⟩
    · left
      have : eraseVia s.history_map_ s.history_list_ f = none :=
        (eraseVia_eq_none _ _ _).2 (fun hx => hm hx.2)
      rw [this]
      exact ⟨hk, hm, rfl⟩
  · rw [if_neg hk]
    right
    by_cases hgt : s.access_count_ f + 1 > s.k_
    · rw [if_pos hgt]
      by_cases hcm : s.cache_map_ f = true
      · have hm : f ∈ s.cache_list_ := (h.cache_keys f).1 hcm
        rw [if_pos hcm, h.eraseVia_cache f hm]
        exact ⟨_, rfl, rfl, rfl, rfl, rfl, rfl, Or.inr (Or.inl ⟨hgt, rfl, rfl⟩)⟩
      · have hm : f ∉ s.cache_list_ := fun hx => hcm ((h.cache_keys f).2 hx)
        rw [if_neg hcm]
        refine ⟨_, rfl, rfl, rfl, rfl, rfl, rfl, Or.inr (Or.inl ⟨hgt, rfl, ?_⟩)⟩
        simp only [List.erase_of_not_mem hm]
    · rw [if_neg hgt]
      have hlt : s.access_count_ f + 1 < s.k_ := by omega
      by_cases hhm : s.history_map_ f = false
      · have hm : f ∉ s.history_list_ := fun hx => by
          have := (h.history_keys f).2 hx
          rw [hhm] at this
          exact Bool.noConfusion this
        have h0 : s.access_count_ f = 0 := by
          by_contra hne
          exact hm ((h.history_count f).2 ⟨Nat.pos_of_ne_zero hne, by omega⟩)
        rw [if_pos hhm]
        refine ⟨_, rfl, rfl, rfl, rfl, rfl, rfl, Or.inr (Or.inr ⟨hlt, rfl, ?_⟩)⟩
        simp only [h0, if_true]
      · have hm : f ∈ s.history_list_ := (h.history_keys f).1 (by simpa using hhm)
        have h0 : s.access_count_ f ≠ 0 := by
          have := ((h.history_count f).1 hm).1
          omega
        rw [if_neg hhm]
        refine ⟨_, rfl, rfl, rfl, rfl, rfl, rfl, Or.inr (Or.inr ⟨hlt, rfl, ?_⟩)⟩
        simp only [h0, if_false]

theorem filter_ne_eq_self (l : List Int) (f : Int) (h : f ∉ l) :
    l.filter (fun g => g != f) = l := by
  apply List.filter_eq_self.2
  intro a ha
  have : a ≠ f := fun e => h (e ▸ ha)
  simpa using this

/-- C11. In every reachable state (any `k ≥ 1`), for a frame that passes the range check, has a
positive access count and is flagged evictable, `Remove` returns; afterwards the frame is in
neither list, its access count is 0, its flag is cleared and `Size()` is one less; every other
frame keeps its count and flag, and both lists are the former lists without the frame, in the
same order. -/
theorem C11_remove_postcondition (num_frames k : Nat) (_hk : 1 ≤ k) (s : LRUKReplacer) (f : Int)
    (hs : Reachable num_frames k s) (hr : ¬ f > static_cast_int s.replacer_size_)
    (hc : 0 < s.access_count_ f) (he : s.is_evictable_ f = true) :
    ∃ s', s.Remove f = .returned () s'
      ∧ f ∉ s'.history_list_ ∧ f ∉ s'.cache_list_
      ∧ s'.access_count_ f = 0 ∧ s'.is_evictable_ f = false
      ∧ s'.Size + 1 = s.Size
      ∧ (∀ g, g ≠ f → s'.access_count_ g = s.access_count_ g
          ∧ s'.is_evictable_ g = s.is_evictable_ g)
      ∧ s'.history_list_ = s.history_list_.filter (fun g => g != f)
      ∧ s'.cache_list_ = s.cache_list_.filter (fun g => g != f) := by
  have h := hs.inv
  have hsz := h.size_le
  by_cases hk : s.access_count_ f < s.k_
  · have hm : f ∈ s.history_list_ := (h.history_count f).2 ⟨hc, hk⟩
    have hnc : f ∉ s.cache_list_ := fun hx => h.not_mem_both f ⟨hm, hx⟩
    have hpos := h.size_pos_of_history f hm he
    refine ⟨dropHistory s f, Remove_history h f hr hm he, h.history_nodup.not_mem_erase, hnc,
      by simp [dropHistory], by simp [dropHistory], decr_eq _ hpos (by omega), ?_,
      h.history_nodup.erase_eq_filter f, (filter_ne_eq_self _ _ hnc).symm⟩
    intro g hg
    simp [dropHistory, Function.update_noteq hg]
  · have hm : f ∈ s.cache_list_ := (h.cache_count f).2 ⟨hc, by omega⟩
    have hnh : f ∉ s.history_list_ := fun hx => h.not_mem_both f ⟨hx, hm⟩
    have hpos := h.size_pos_of_cache f hm he
    refine ⟨dropCache s f, Remove_cache h f hr hm he, hnh, h.cache_nodup.not_mem_erase,
      by simp [dropCache], by simp [dropCache], decr_eq _ hpos (by omega), ?_,
      (filter_ne_eq_self _ _ hnh).symm, h.cache_nodup.erase_eq_filter f⟩
    intro g hg
    simp [dropCache, Function.update_noteq hg]

/-- Witness of C11: in the single-frame scenario frame 0 is tracked and evictable; `Remove(0)`
returns and takes `Size()` from 1 to 0. -/
theorem C11_remove_postcondition_witness :
    Reachable 3 2 singleScenario
      ∧ ¬ (0 : Int) > static_cast_int singleScenario.replacer_size_
      ∧ 0 < singleScenario.access_count_ 0 ∧ singleScenario.is_evictable_ 0 = true
      ∧ singleScenario.Size = 1
      ∧ ∃ s', singleScenario.Remove 0 = .returned () s'
          ∧ (0 : Int) ∉ s'.history_list_ ∧ (0 : Int) ∉ s'.cache_list_
          ∧ s'.access_count_ 0 = 0 ∧ s'.is_evictable_ 0 = false
          ∧ s'.Size + 1 = singleScenario.Size := by
  refine ⟨singleScenario_reachable, by decide, by decide, by decide, by decide, ?_⟩
  obtain ⟨s', h1, h2, h3, h4, h5, h6, _⟩ :=
    C11_remove_postcondition 3 2 (by decide) singleScenario 0 singleScenario_reachable
      (by decide) (by decide) (by decide)
  exact ⟨s', h1, h2, h3, h4, h5, h6⟩

/-- In every state, reachable or not, for a frame id that passes the range check: when
`Remove(f)` returns, a second `Remove(f)` right after it returns as well and leaves the state
as it is; and `Remove(f)` on a frame with access count 0 returns without touching the state. -/
theorem Remove_idempotent (s : LRUKReplacer) (f : Int)
    (hr : ¬ f > static_cast_int s.replacer_size_) :
    (∀ s', s.Remove f = .returned () s' → s'.Remove f = .returned () s')
      ∧ (s.access_count_ f = 0 → s.Remove f = .returned () s) := by
  have hzero : ∀ s1 : LRUKReplacer, ¬ f > static_cast_int s1.replacer_size_ →
      s1.access_count_ f = 0 → s1.Remove f = .returned () s1 := by
    intro s1 hr1 h0
    unfold Remove
    rw [if_neg hr1]
    simp only [h0, if_true]
  refine ⟨?_, hzero s hr⟩
  intro s' hs'
  by_cases h0 : s.access_count_ f = 0
  · rw [hzero s hr h0] at hs'
    simp only [Outcome.returned.injEq, true_and] at hs'
    subst hs'
    exact hzero s hr h0
  · unfold Remove at hs'
    rw [if_neg hr] at hs'
    simp only [h0, if_false] at hs'
    split_ifs at hs'
    · split at hs'
      · exact Outcome.noConfusion hs'
      · simp only [Outcome.returned.injEq, true_and] at hs'
        subst hs'
        exact hzero _ hr (by simp)
    · split at hs'
      · exact Outcome.noConfusion hs'
      · simp only [Outcome.returned.injEq, true_and] at hs'
        subst hs'
        exact hzero _ hr (by simp)

/-- In the single-frame scenario `Remove(0)` returns the state without frame 0, and `Remove(0)`
on that state returns it unchanged. -/
theorem Remove_idempotent_example :
    ¬ (0 : Int) > static_cast_int singleScenario.replacer_size_
      ∧ singleScenario.Remove 0 = .returned () (dropHistory singleScenario 0)
      ∧ (dropHistory singleScenario 0).Remove 0 = .returned () (dropHistory singleScenario 0) :=
  ⟨by decide, by rfl,
    (Remove_idempotent singleScenario 0 (by decide)).1 (dropHistory singleScenario 0)
      (by rfl)⟩

theorem Remove_twice (s s' : LRUKReplacer) (f : Int) (h : s.Remove f = .returned () s') :
    s'.Remove f = .returned () s' := by
  by_cases hr : f > static_cast_int s.replacer_size_
  · rw [(range_check_throws s f true hr).2.2] at h
    exact Outcome.noConfusion h
  · exact (Remove_idempotent s f hr).1 s' h

theorem Remove_untracked_noop_in_range (s : LRUKReplacer) (f : Int)
    (hn : s.replacer_size_ < 2 ^ 31) (h0 : 0 ≤ f) (hf : f < s.replacer_size_)
    (hc : s.access_count_ f = 0) : s.Remove f = .returned () s :=
  (Remove_idempotent s f (in_range_passes s.replacer_size_ f hn h0 hf)).2 hc

/-- C12. A `Remove` that returned is followed by a `Remove` that returns the same state, but
`Remove` on a frame of `[0, num_frames)` with access count 0 is not always silent: on the fresh
`LRUKReplacer(2^31, 2)` the cast in the range check is `-2^31`, so `Remove(0)` throws at the
range check although frame 0 is in range and untracked. With `num_frames = 2^31 - 1` the same
call returns and leaves the state as it was. -/
theorem C12_remove_in_range_throws_at_wrapped_cast :
    Reachable (2 ^ 31) 2 (construct (2 ^ 31) 2)
      ∧ (0 : Int) ≤ 0 ∧ (0 : Int) < ((construct (2 ^ 31) 2).replacer_size_ : Int)
      ∧ (construct (2 ^ 31) 2).access_count_ 0 = 0
      ∧ static_cast_int (construct (2 ^ 31) 2).replacer_size_ = -(2 ^ 31)
      ∧ (construct (2 ^ 31) 2).Remove 0 = .thrown .InvalidFrame (construct (2 ^ 31) 2)
      ∧ (construct (2 ^ 31 - 1) 2).Remove 0 = .returned () (construct (2 ^ 31 - 1) 2)
      ∧ (∀ (s s' : LRUKReplacer) (f : Int), s.Remove f = .returned () s' →
          s'.Remove f = .returned () s') :=
  ⟨Reachable.construct, by decide, by decide, by decide, by decide, by rfl, by rfl,
    Remove_twice⟩

theorem RecordAccess_at_threshold (num_frames k : Nat) (hk : 2 ≤ k) (s : LRUKReplacer) (f : Int)
    (hs : Reachable num_frames k s) (hr : ¬ f > static_cast_int s.replacer_size_)
    (hc : s.access_count_ f + 1 ≥ k) :
    ∃ s', s.RecordAccess f = .returned () s'
      ∧ s'.cache_list_ = f :: s.cache_list_.filter (fun g => g != f)
      ∧ s'.history_list_ = s.history_list_.filter (fun g => g != f)
      ∧ f ∉ s'.history_list_
      ∧ (s.access_count_ f + 1 = k → f ∈ s.history_list_ ∧ f ∉ s.cache_list_)
      ∧ (s.access_count_ f + 1 > k → f ∈ s.cache_list_ ∧ f ∉ s.history_list_) := by
  have h := hs.inv
  have hkk := hs.params.2
  have hh := h.history_count f
  have hcc := h.cache_count f
  rw [hkk] at hh hcc
  rcases RecordAccess_cases h f hr with ⟨hk1, hnm, _⟩ | ⟨s', hret, _, _, _, _, _, hcase⟩
  · exact absurd (hh.2 ⟨by omega, by omega⟩) hnm
  · rcases hcase with ⟨hk1, hm, hhl, hcl⟩ | ⟨hgt, hhl, hcl⟩ | ⟨hlt, _, _⟩
    · have hnc : f ∉ s.cache_list_ := fun hx => h.not_mem_both f ⟨hm, hx⟩
      refine ⟨s', hret, ?_, ?_, ?_, fun _ => ⟨hm, hnc⟩, fun hgt => ?_⟩
      · rw [hcl, filter_ne_eq_self _ _ hnc]
      · rw [hhl, h.history_nodup.erase_eq_filter f]
      · rw [hhl]; exact h.history_nodup.not_mem_erase
      · omega
    · rw [hkk] at hgt
      have hm : f ∈ s.cache_list_ := hcc.2 ⟨by omega, by omega⟩
      have hnh : f ∉ s.history_list_ := fun hx => h.not_mem_both f ⟨hx, hm⟩
      refine ⟨s', hret, ?_, ?_, ?_, fun he => ?_, fun _ => ⟨hm, hnh⟩⟩
      · rw [hcl, h.cache_nodup.erase_eq_filter f]
      · rw [hhl, filter_ne_eq_self _ _ hnh]
      · rw [hhl]; exact hnh
      · omega
    · omega

/-- C13. With `k = 1` the first `RecordAccess` of a frame has no defined result: on the fresh
`LRUKReplacer(3, 1)` frame 0 passes the range check, its new access count equals `k`, so the
promotion branch runs `history_list_.erase(history_map_[0])`, but `history_map_` stores no
position for frame 0 and the history list is empty. The frame never becomes the front of the
cache list. -/
theorem C13_promotion_undefined_at_k_one :
    ¬ (0 : Int) > static_cast_int (construct 3 1).replacer_size_
      ∧ (construct 3 1).access_count_ 0 + 1 = (construct 3 1).k_
      ∧ (construct 3 1).history_map_ 0 = false ∧ (construct 3 1).history_list_ = []
      ∧ eraseVia (construct 3 1).history_map_ (construct 3 1).history_list_ 0 = none
      ∧ (construct 3 1).RecordAccess 0 = .undefined
      ∧ ((construct 3 1).RecordAccess 0).state? = none :=
  ⟨by decide, by decide, by decide, by decide, by decide, by rfl, by rfl⟩

/-- In every reachable state with `k ≥ 2`, for a frame that passes the range check and whose
access count `c` has `c + 1 < k`, `RecordAccess` returns and leaves the cache list as it was;
when `c = 0` the history list afterwards is the frame followed by the former history list, when
`c ≥ 1` the history list is exactly the former one. -/
theorem RecordAccess_below_threshold (num_frames k : Nat) (_hk : 2 ≤ k) (s : LRUKReplacer)
    (f : Int) (hs : Reachable num_frames k s) (hr : ¬ f > static_cast_int s.replacer_size_)
    (hc : s.access_count_ f + 1 < k) :
    ∃ s', s.RecordAccess f = .returned () s'
      ∧ s'.cache_list_ = s.cache_list_
      ∧ (s.access_count_ f = 0 → s'.history_list_ = f :: s.history_list_)
      ∧ (1 ≤ s.access_count_ f → s'.history_list_ = s.history_list_) := by
  have h := hs.inv
  have hkk := hs.params.2
  rcases RecordAccess_cases h f hr with ⟨hk1, _, _⟩ | ⟨s', hret, _, _, _, _, _, hcase⟩
  · omega
  · rcases hcase with ⟨hk1, _, _, _⟩ | ⟨hgt, _, _⟩ | ⟨_, hcl, hhl⟩
    · omega
    · omega
    · refine ⟨s', hret, hcl, fun h0 => ?_, fun h1 => ?_⟩
      · rw [hhl, if_pos h0]
      · rw [hhl, if_neg (by omega)]

/-- With `k = 3`, on the fresh replacer `RecordAccess(1)` puts frame 1 at the front of the
history list; after the accesses of frames 1 and 2 another `RecordAccess(1)` leaves the history
list `[2, 1]` as it is. -/
theorem RecordAccess_below_threshold_example :
    Reachable 3 3 (afterCalls (construct 3 3) [.RecordAccess 1, .RecordAccess 2])
      ∧ (afterCalls (construct 3 3) [.RecordAccess 1, .RecordAccess 2]).access_count_ 1 = 1
      ∧ (afterCalls (construct 3 3) [.RecordAccess 1, .RecordAccess 2]).history_list_ = [2, 1]
      ∧ (afterCalls (construct 3 3) [.RecordAccess 1, .RecordAccess 2, .RecordAccess 1]).history_list_
          = [2, 1]
      ∧ (afterCalls (construct 3 3) [.RecordAccess 1]).history_list_ = [1]
      ∧ ∃ s', (afterCalls (construct 3 3) [.RecordAccess 1, .RecordAccess 2]).RecordAccess 1
            = .returned () s'
          ∧ s'.cache_list_
            = (afterCalls (construct 3 3) [.RecordAccess 1, .RecordAccess 2]).cache_list_
          ∧ s'.history_list_
            = (afterCalls (construct 3 3) [.RecordAccess 1, .RecordAccess 2]).history_list_ := by
  have hreach : Reachable 3 3 (afterCalls (construct 3 3) [.RecordAccess 1, .RecordAccess 2]) :=
    Reachable.runCalls [.RecordAccess 1, .RecordAccess 2] _ _ Reachable.construct (by decide)
      (by rfl)
  refine ⟨hreach, by decide, by decide, by decide, by decide, ?_⟩
  obtain ⟨s', h1, h2, _, h4⟩ :=
    RecordAccess_below_threshold 3 3 (by decide) _ 1 hreach (by decide) (by decide)
  exact ⟨s', h1, h2, h4 (by decide)⟩

theorem RecordAccess_below_threshold_in_range (num_frames k : Nat) (hk : 2 ≤ k)
    (s : LRUKReplacer) (f : Int) (hs : Reachable num_frames k s) (hn : num_frames < 2 ^ 31)
    (h0 : 0 ≤ f) (hf : f < num_frames) (hc : s.access_count_ f + 1 < k) :
    ∃ s', s.RecordAccess f = .returned () s'
      ∧ s'.cache_list_ = s.cache_list_
      ∧ (s.access_count_ f = 0 → s'.history_list_ = f :: s.history_list_)
      ∧ (1 ≤ s.access_count_ f → s'.history_list_ = s.history_list_) :=
  RecordAccess_below_threshold num_frames k hk s f hs
    (by rw [hs.params.1]; exact in_range_passes num_frames f hn h0 hf) hc

/-- C14. Below the threshold `RecordAccess` does not always put a first-accessed frame of
`[0, num_frames)` at the front of the history list: on the fresh `LRUKReplacer(2^31, 3)` the cast
in the range check is `-2^31`, so `RecordAccess(0)`, with access count `c = 0` and `c + 1 < k`,
throws at the range check and the history list stays empty. With `num_frames = 2^31 - 1` the
same call returns and the history list is `[0]`. -/
theorem C14_recordAccess_in_range_throws_at_wrapped_cast :
    Reachable (2 ^ 31) 3 (construct (2 ^ 31) 3)
      ∧ (0 : Int) ≤ 0 ∧ (0 : Int) < ((construct (2 ^ 31) 3).replacer_size_ : Int)
      ∧ (construct (2 ^ 31) 3).access_count_ 0 + 1 < (construct (2 ^ 31) 3).k_
      ∧ static_cast_int (construct (2 ^ 31) 3).replacer_size_ = -(2 ^ 31)
      ∧ (construct (2 ^ 31) 3).RecordAccess 0 = .thrown .InvalidFrame (construct (2 ^ 31) 3)
      ∧ (((construct (2 ^ 31) 3).RecordAccess 0).state?.map (fun s => s.history_list_))
          = some []
      ∧ ((construct (2 ^ 31 - 1) 3).RecordAccess 0).value? = some ()
      ∧ (((construct (2 ^ 31 - 1) 3).RecordAccess 0).state?.map (fun s => s.history_list_))
          = some [0] :=
  ⟨Reachable.construct, by decide, by decide, by decide, by decide, by rfl, by decide,
    by decide, by decide⟩

theorem pairwise_update_of_not_mem (st : Int → Nat) (f : Int) (v : Nat) (l : List Int)
    (hf : f ∉ l) (h : l.Pairwise (fun a b => st a > st b)) :
    l.Pairwise (fun a b => Function.update st f v a > Function.update st f v b) := by
  refine List.Pairwise.imp_of_mem ?_ h
  intro a b ha hb hab
  have h1 : a ≠ f := fun e => hf (e ▸ ha)
  have h2 : b ≠ f := fun e => hf (e ▸ hb)
  rw [Function.update_noteq h1, Function.update_noteq h2]
  exact hab

theorem pairwise_cons_fresh (st : Int → Nat) (f : Int) (n : Nat) (l : List Int) (hf : f ∉ l)
    (hle : ∀ x, st x ≤ n) (h : l.Pairwise (fun a b => st a > st b)) :
    (f :: l).Pairwise
      (fun a b => Function.update st f (n + 1) a > Function.update st f (n + 1) b) := by
  refine List.pairwise_cons.2 ⟨?_, pairwise_update_of_not_mem st f (n + 1) l hf h⟩
  intro a ha
  have h1 : a ≠ f := fun e => hf (e ▸ ha)
  rw [Function.update_same, Function.update_noteq h1]
  have := hle a
  omega

theorem Timed.start (num_frames k : Nat) : Timed (construct num_frames k) Clocks.start := by
  constructor
  · exact inv_construct num_frames k
  · intro f hf; simp [construct] at hf
  · intro f; simp [Clocks.start]
  · intro f; simp [Clocks.start]
  · intro f hf; simp [construct] at hf
  · intro f hf; simp [construct] at hf
  · simp [construct]
  · simp [construct]

theorem Timed.quiet {s s' : LRUKReplacer} {t : Clocks} (h : Timed s t) (hinv : Inv s')
    (hp : s'.replacer_size_ = s.replacer_size_)
    (hcnt : ∀ g, s'.access_count_ g = s.access_count_ g ∨ s'.access_count_ g = 0)
    (hh : s'.history_list_.Sublist s.history_list_)
    (hc : s'.cache_list_.Sublist s.cache_list_) :
    Timed s' { t with now := t.now + 1 } := by
  have keep : ∀ g, 1 ≤ s'.access_count_ g → s'.access_count_ g = s.access_count_ g := by
    intro g hg
    rcases hcnt g with h1 | h1
    · exact h1
    · omega
  constructor
  · exact hinv
  · intro g hg
    rw [hp]
    exact h.passed g (by rw [← keep g hg]; exact hg)
  · intro g
    have := h.last_le g
    show t.last g ≤ t.now + 1
    omega
  · intro g
    have := h.entered_le g
    show t.entered g ≤ t.now + 1
    omega
  · intro g hg
    exact h.stamped g (by rw [← keep g hg]; exact hg)
  · intro g hg
    exact h.once g (by rw [← keep g (by omega)]; exact hg)
  · exact h.cache_sorted.sublist hc
  · exact h.history_sorted.sublist hh

theorem Timed.same {s : LRUKReplacer} {t : Clocks} (h : Timed s t) :
    Timed s { t with now := t.now + 1 } :=
  h.quiet h.inv rfl (fun _ => Or.inl rfl) (List.Sublist.refl _) (List.Sublist.refl _)

theorem Timed.dropHistory {s : LRUKReplacer} {t : Clocks} (h : Timed s t) (f : Int)
    (hm : f ∈ s.history_list_) (he : s.is_evictable_ f = true) :
    Timed (dropHistory s f) { t with now := t.now + 1 } := by
  refine h.quiet (inv_dropHistory s f h.inv hm he) rfl ?_ (List.erase_sublist f _)
    (List.Sublist.refl _)
  intro g
  by_cases hg : g = f
  · right; simp [bustub.dropHistory, hg]
  · left; simp [bustub.dropHistory, Function.update_noteq hg]

theorem Timed.dropCache {s : LRUKReplacer} {t : Clocks} (h : Timed s t) (f : Int)
    (hm : f ∈ s.cache_list_) (he : s.is_evictable_ f = true) :
    Timed (dropCache s f) { t with now := t.now + 1 } := by
  refine h.quiet (inv_dropCache s f h.inv hm he) rfl ?_ (List.Sublist.refl _)
    (List.erase_sublist f _)
  intro g
  by_cases hg : g = f
  · right; simp [bustub.dropCache, hg]
  · left; simp [bustub.dropCache, Function.update_noteq hg]

theorem Timed.Evict {s s' : LRUKReplacer} {t : Clocks} (h : Timed s t)
    (hs : s.Evict.state? = some s') : Timed s' (t.tick s .Evict) := by
  show Timed s' { t with now := t.now + 1 }
  rcases Evict_cases h.inv with ⟨f, hm, he, hev⟩ | ⟨f, hm, he, _, hev⟩ | ⟨_, _, hev⟩
  · rw [hev] at hs
    simp only [Outcome.state?, Option.some.injEq] at hs
    subst hs
    exact h.dropHistory f hm he
  · rw [hev] at hs
    simp only [Outcome.state?, Option.some.injEq] at hs
    subst hs
    exact h.dropCache f hm he
  · rw [hev] at hs
    simp only [Outcome.state?, Option.some.injEq] at hs
    subst hs
    exact h.same

theorem Remove_cases {s : LRUKReplacer} (h : Inv s) (f : Int) :
    s.Remove f = .thrown .InvalidFrame s ∨ s.Remove f = .thrown .NotEvictable s
      ∨ s.Remove f = .returned () s
      ∨ (f ∈ s.history_list_ ∧ s.is_evictable_ f = true
          ∧ s.Remove f = .returned () (dropHistory s f))
      ∨ (f ∈ s.cache_list_ ∧ s.is_evictable_ f = true
          ∧ s.Remove f = .returned () (dropCache s f)) := by
  by_cases hr : f > static_cast_int s.replacer_size_
  · left; unfold Remove; rw [if_pos hr]
  by_cases hc : s.access_count_ f = 0
  · right; right; left
    unfold Remove; rw [if_neg hr]; simp only [hc, if_true]
  by_cases he : s.is_evictable_ f = true
  · have hcnt : 1 ≤ s.access_count_ f := Nat.pos_of_ne_zero hc
    by_cases hk : s.access_count_ f < s.k_
    · have hm : f ∈ s.history_list_ := (h.history_count f).2 ⟨hcnt, hk⟩
      exact Or.inr (Or.inr (Or.inr (Or.inl ⟨hm, he, Remove_history h f hr hm he⟩)))
    · have hm : f ∈ s.cache_list_ := (h.cache_count f).2 ⟨hcnt, by omega⟩
      exact Or.inr (Or.inr (Or.inr (Or.inr ⟨hm, he, Remove_cache h f hr hm he⟩)))
  · right; left
    have he' : s.is_evictable_ f = false := by simpa using he
    unfold Remove; rw [if_neg hr]; simp only [hc, he', if_true, if_false]

theorem Timed.Remove {s s' : LRUKReplacer} {t : Clocks} (h : Timed s t) (f : Int)
    (hs : (s.Remove f).state? = some s') : Timed s' (t.tick s (.Remove f)) := by
  show Timed s' { t with now := t.now + 1 }
  rcases Remove_cases h.inv f with hev | hev | hev | ⟨hm, he, hev⟩ | ⟨hm, he, hev⟩
  all_goals
    rw [hev] at hs
    simp only [Outcome.state?, Option.some.injEq] at hs
    subst hs
  · exact h.same
  · exact h.same
  · exact h.same
  · exact h.dropHistory f hm he
  · exact h.dropCache f hm he

theorem Timed.SetEvictable {s s' : LRUKReplacer} {t : Clocks} (h : Timed s t) (f : Int)
    (b : Bool) (hs : (s.SetEvictable f b).state? = some s') :
    Timed s' (t.tick s (.SetEvictable f b)) := by
  show Timed s' { t with now := t.now + 1 }
  have hinv := inv_SetEvictable s f b h.inv s' hs
  unfold LRUKReplacer.SetEvictable at hs
  simp only [] at hs
  split_ifs at hs
  all_goals
    simp only [Outcome.state?, Option.some.injEq] at hs
    subst hs
    exact h.quiet hinv rfl (fun _ => Or.inl rfl) (List.Sublist.refl _) (List.Sublist.refl _)

theorem Timed.RecordAccess {s s' : LRUKReplacer} {t : Clocks} (h : Timed s t) (f : Int)
    (hf : isFrameId f) (hs : (s.RecordAccess f).state? = some s') :
    Timed s' (t.tick s (.RecordAccess f)) := by
  have hinv' := inv_RecordAccess s f h.inv hf s' hs
  have hlast : ∀ g, Function.update t.last f (t.now + 1) g ≤ t.now + 1 := by
    intro g
    rw [Function.update_apply]
    have := h.last_le g
    split_ifs <;> omega
  have hent : ∀ g, (if s.access_count_ f = 0 then Function.update t.entered f (t.now + 1)
      else t.entered) g ≤ t.now + 1 := by
    intro g
    have := h.entered_le g
    split_ifs
    · rw [Function.update_apply]
      split_ifs <;> omega
    · omega
  have hnh0 : s.access_count_ f = 0 → f ∉ s.history_list_ := fun h0 hx => by
    have := (h.inv.history_count f).1 hx
    omega
  have hnc0 : s.access_count_ f = 0 → f ∉ s.cache_list_ := fun h0 hx => by
    have := (h.inv.cache_count f).1 hx
    omega
  by_cases hr : f > static_cast_int s.replacer_size_
  · -- the call throws
    have hth := (range_check_throws s f true hr).1
    rw [hth] at hs
    simp only [Outcome.state?, Option.some.injEq] at hs
    subst hs
    have h0 : s.access_count_ f = 0 := by
      by_contra hne
      exact h.passed f (Nat.pos_of_ne_zero hne) hr
    have hne : ∀ g, 1 ≤ s.access_count_ g → g ≠ f := fun g hg e => by
      rw [e] at hg; omega
    constructor
    · exact h.inv
    · exact h.passed
    · exact hlast
    · exact hent
    · intro g hg
      show 1 ≤ (if s.access_count_ f = 0 then Function.update t.entered f (t.now + 1)
          else t.entered) g
        ∧ (if s.access_count_ f = 0 then Function.update t.entered f (t.now + 1)
          else t.entered) g ≤ Function.update t.last f (t.now + 1) g
      rw [if_pos h0, Function.update_noteq (hne g hg), Function.update_noteq (hne g hg)]
      exact h.stamped g hg
    · intro g hg
      show Function.update t.last f (t.now + 1) g
        = (if s.access_count_ f = 0 then Function.update t.entered f (t.now + 1)
          else t.entered) g
      rw [if_pos h0, Function.update_noteq (hne g (by omega)),
        Function.update_noteq (hne g (by omega))]
      exact h.once g hg
    · exact pairwise_update_of_not_mem _ _ _ _ (hnc0 h0) h.cache_sorted
    · show s.history_list_.Pairwise (fun a b =>
        (if s.access_count_ f = 0 then Function.update t.entered f (t.now + 1)
          else t.entered) a
        > (if s.access_count_ f = 0 then Function.update t.entered f (t.now + 1)
          else t.entered) b)
      rw [if_pos h0]
      exact pairwise_update_of_not_mem _ _ _ _ (hnh0 h0) h.history_sorted
  · rcases RecordAccess_cases h.inv f hr with ⟨_, _, hun⟩ | ⟨s1, hret, hcnt, _, _, hrs, _, hcase⟩
    · rw [hun] at hs
      simp [Outcome.state?] at hs
    · rw [hret] at hs
      simp only [Outcome.state?, Option.some.injEq] at hs
      subst hs
      constructor
      · exact hinv'
      · intro g hg
        rw [hrs]
        by_cases hgf : g = f
        · rw [hgf]; exact hr
        · rw [hcnt, Function.update_noteq hgf] at hg
          exact h.passed g hg
      · exact hlast
      · exact hent
      · intro g hg
        show 1 ≤ (if s.access_count_ f = 0 then Function.update t.entered f (t.now + 1)
            else t.entered) g
          ∧ (if s.access_count_ f = 0 then Function.update t.entered f (t.now + 1)
            else t.entered) g ≤ Function.update t.last f (t.now + 1) g
        by_cases hgf : g = f
        · subst hgf
          rw [Function.update_same]
          by_cases h0 : s.access_count_ g = 0
          · rw [if_pos h0, Function.update_same]
            omega
          · rw [if_neg h0]
            have h1 := h.stamped g (Nat.pos_of_ne_zero h0)
            have h2 := h.last_le g
            omega
        · rw [hcnt, Function.update_noteq hgf] at hg
          rw [Function.update_noteq hgf]
          have h1 := h.stamped g hg
          split_ifs
          · rw [Function.update_noteq hgf]; exact h1
          · exact h1
      · intro g hg
        show Function.update t.last f (t.now + 1) g
          = (if s.access_count_ f = 0 then Function.update t.entered f (t.now + 1)
            else t.entered) g
        by_cases hgf : g = f
        · subst hgf
          rw [hcnt, Function.update_same] at hg
          have h0 : s.access_count_ g = 0 := by omega
          rw [if_pos h0, Function.update_same, Function.update_same]
        · rw [hcnt, Function.update_noteq hgf] at hg
          rw [Function.update_noteq hgf]
          have h1 := h.once g hg
          split_ifs
          · rw [Function.update_noteq hgf]; exact h1
          · exact h1
      · show s1.cache_list_.Pairwise (fun a b =>
          Function.update t.last f (t.now + 1) a > Function.update t.last f (t.now + 1) b)
        rcases hcase with ⟨_, hm, _, hcl⟩ | ⟨_, _, hcl⟩ | ⟨hlt, hcl, _⟩
        · rw [hcl]
          exact pairwise_cons_fresh _ _ _ _ (fun hx => h.inv.not_mem_both f ⟨hm, hx⟩)
            h.last_le h.cache_sorted
        · rw [hcl]
          exact pairwise_cons_fresh _ _ _ _ h.inv.cache_nodup.not_mem_erase h.last_le
            (h.cache_sorted.sublist (List.erase_sublist f _))
        · rw [hcl]
          refine pairwise_update_of_not_mem _ _ _ _ (fun hx => ?_) h.cache_sorted
          have := (h.inv.cache_count f).1 hx
          omega
      · show s1.history_list_.Pairwise (fun a b =>
          (if s.access_count_ f = 0 then Function.update t.entered f (t.now + 1)
            else t.entered) a
          > (if s.access_count_ f = 0 then Function.update t.entered f (t.now + 1)
            else t.entered) b)
        rcases hcase with ⟨_, hm, hhl, _⟩ | ⟨_, hhl, _⟩ | ⟨_, _, hhl⟩
        · have h0 : s.access_count_ f ≠ 0 := fun h0 => hnh0 h0 hm
          rw [if_neg h0, hhl]
          exact h.history_sorted.sublist (List.erase_sublist f _)
        · rw [hhl]
          by_cases h0 : s.access_count_ f = 0
          · rw [if_pos h0]
            exact pairwise_update_of_not_mem _ _ _ _ (hnh0 h0) h.history_sorted
          · rw [if_neg h0]
            exact h.history_sorted
        · rw [hhl]
          by_cases h0 : s.access_count_ f = 0
          · rw [if_pos h0, if_pos h0]
            exact pairwise_cons_fresh _ _ _ _ (hnh0 h0) h.entered_le h.history_sorted
          · rw [if_neg h0, if_neg h0]
            exact h.history_sorted

theorem Timed.step {s s' : LRUKReplacer} {t : Clocks} (h : Timed s t) (c : Call)
    (ht : c.typed) (hs : c.after s = some s') : Timed s' (t.tick s c) := by
  cases c with
  | RecordAccess f => exact h.RecordAccess f ht hs
  | SetEvictable f b => exact h.SetEvictable f b hs
  | Evict => exact h.Evict hs
  | Remove f => exact h.Remove f hs

theorem Timed.run (cs : List Call) :
    ∀ (s s' : LRUKReplacer) (t t' : Clocks), Timed s t → (∀ c ∈ cs, c.typed) →
      runClocked s t cs = some (s', t') → Timed s' t' := by
  induction cs with
  | nil =>
    intro s s' t t' h _ hrun
    simp only [runClocked, Option.some.injEq, Prod.mk.injEq] at hrun
    obtain ⟨h1, h2⟩ := hrun
    subst h1; subst h2
    exact h
  | cons c cs ih =>
    intro s s' t t' h hty hrun
    simp only [runClocked] at hrun
    cases hc : c.after s with
    | none => rw [hc] at hrun; simp at hrun
    | some s1 =>
      rw [hc] at hrun
      exact ih s1 s' _ t' (h.step c (hty c (List.mem_cons_self _ _)) hc)
        (fun c' hc' => hty c' (List.mem_cons_of_mem _ hc')) hrun

theorem runClocked_fst (cs : List Call) :
    ∀ (s : LRUKReplacer) (t : Clocks), (runClocked s t cs).map Prod.fst = runCalls s cs := by
  induction cs with
  | nil => intro s t; rfl
  | cons c cs ih =>
    intro s t
    simp only [runClocked, runCalls]
    cases hc : c.after s with
    | none => rfl
    | some s1 => simp only [Option.some_bind]; exact ih s1 _

theorem runClocked_reachable {num_frames k : Nat} (cs : List Call) (s : LRUKReplacer)
    (t : Clocks) (hty : ∀ c ∈ cs, c.typed)
    (hrun : runClocked (construct num_frames k) Clocks.start cs = some (s, t)) :
    Reachable num_frames k s := by
  refine Reachable.runCalls cs _ _ Reachable.construct hty ?_
  rw [← runClocked_fst cs _ Clocks.start, hrun]
  rfl

theorem tick_now (t : Clocks) (s : LRUKReplacer) (c : Call) : (t.tick s c).now = t.now + 1 := by
  cases c <;> rfl

theorem runClocked_now (cs : List Call) :
    ∀ (s s' : LRUKReplacer) (t t' : Clocks), runClocked s t cs = some (s', t') →
      t'.now = t.now + cs.length := by
  induction cs with
  | nil =>
    intro s s' t t' hrun
    simp only [runClocked, Option.some.injEq, Prod.mk.injEq] at hrun
    rw [← hrun.2]; rfl
  | cons c cs ih =>
    intro s s' t t' hrun
    simp only [runClocked] at hrun
    cases hc : c.after s with
    | none => rw [hc] at hrun; simp at hrun
    | some s1 =>
      rw [hc] at hrun
      have := ih s1 s' _ t' hrun
      rw [tick_now] at this
      simp only [List.length_cons]
      omega

theorem runClocked_append (cs ds : List Call) :
    ∀ (s : LRUKReplacer) (t : Clocks),
      runClocked s t (cs ++ ds) = (runClocked s t cs).bind (fun p => runClocked p.1 p.2 ds) := by
  induction cs with
  | nil => intro s t; rfl
  | cons c cs ih =>
    intro s t
    simp only [List.cons_append, runClocked]
    cases hc : c.after s with
    | none => rfl
    | some s1 => exact ih s1 _

theorem Reachable.trace {num_frames k : Nat} {s : LRUKReplacer}
    (h : Reachable num_frames k s) :
    ∃ cs t, (∀ c ∈ cs, c.typed)
      ∧ runClocked (LRUKReplacer.construct num_frames k) Clocks.start cs = some (s, t) := by
  induction h with
  | construct => exact ⟨[], Clocks.start, fun _ hc => absurd hc (List.not_mem_nil _), rfl⟩
  | call s s' c _ ht hs ih =>
    obtain ⟨cs, t, hty, hrun⟩ := ih
    refine ⟨cs ++ [c], t.tick s c, ?_, ?_⟩
    · intro c' hc'
      rcases List.mem_append.1 hc' with h1 | h1
      · exact hty c' h1
      · rw [List.mem_singleton.1 h1]; exact ht
    · rw [runClocked_append, hrun]
      simp only [Option.some_bind, runClocked, hs]

theorem Reachable.timed {num_frames k : Nat} {s : LRUKReplacer}
    (h : Reachable num_frames k s) : ∃ t, Timed s t := by
  obtain ⟨cs, t, hty, hrun⟩ := h.trace
  exact ⟨t, Timed.run cs _ _ _ _ (Timed.start num_frames k) hty hrun⟩

theorem find?_reverse_sorted (p : Int → Bool) (st : Int → Nat) (l : List Int) (f : Int)
    (hfind : l.reverse.find? p = some f) (hs : l.Pairwise (fun a b => st a > st b)) :
    ∀ g ∈ l, p g = true → g ≠ f → st f < st g := by
  obtain ⟨_, as, bs, hl, has⟩ := List.find?_eq_some.1 hfind
  have hl' : l = bs.reverse ++ f :: as.reverse := by
    have := congrArg List.reverse hl
    simpa using this
  intro g hg hpg hne
  rw [hl'] at hg hs
  rcases List.mem_append.1 hg with h1 | h1
  · exact (List.pairwise_append.1 hs).2.2 g h1 f (List.mem_cons_self _ _)
  · rcases List.mem_cons.1 h1 with h2 | h2
    · exact absurd h2 hne
    · have := has g (List.mem_reverse.1 h2)
      rw [hpg] at this
      exact absurd this (by decide)

theorem Evict_from_history {s s' : LRUKReplacer} (h : Inv s) (f : Int)
    (hev : s.Evict = .returned (some f) s') (hm : f ∈ s.history_list_) :
    s.history_list_.reverse.find? (fun frame => s.is_evictable_ frame) = some f := by
  cases hh : s.history_list_.reverse.find? (fun frame => s.is_evictable_ frame) with
  | some f1 =>
    rw [Evict_history h f1 hh] at hev
    simp only [Outcome.returned.injEq, Option.some.injEq] at hev
    rw [hev.1]
  | none =>
    exfalso
    cases hc : s.cache_list_.reverse.find? (fun frame => s.is_evictable_ frame) with
    | some f1 =>
      rw [Evict_cache h f1 hh hc] at hev
      simp only [Outcome.returned.injEq, Option.some.injEq] at hev
      have := (find?_reverse_mem _ _ _ hc).1
      rw [hev.1] at this
      exact h.not_mem_both f ⟨hm, this⟩
    | none =>
      rw [Evict_none hh hc] at hev
      simp at hev

theorem Evict_from_cache {s s' : LRUKReplacer} (h : Inv s) (f : Int)
    (hev : s.Evict = .returned (some f) s')
    (hno : ∀ x ∈ s.history_list_, s.is_evictable_ x = false) :
    s.cache_list_.reverse.find? (fun frame => s.is_evictable_ frame) = some f := by
  cases hh : s.history_list_.reverse.find? (fun frame => s.is_evictable_ frame) with
  | some f1 =>
    exfalso
    obtain ⟨hm, he⟩ := find?_reverse_mem _ _ _ hh
    rw [hno f1 hm] at he
    exact Bool.noConfusion he
  | none =>
    cases hc : s.cache_list_.reverse.find? (fun frame => s.is_evictable_ frame) with
    | some f1 =>
      rw [Evict_cache h f1 hh hc] at hev
      simp only [Outcome.returned.injEq, Option.some.injEq] at hev
      rw [hev.1]
    | none =>
      rw [Evict_none hh hc] at hev
      simp at hev

/-- C15, as stated, fails. With `k = 3` the calls `RecordAccess(1)`, `RecordAccess(2)`,
`RecordAccess(1)`, `SetEvictable(1, true)`, `SetEvictable(2, true)` leave the history list
`[2, 1]`: the second access of frame 1 does not move it. `Evict` returns frame 1, although its
latest access (call 3) is later than the latest access of the evictable history frame 2
(call 2). -/
theorem C15_evict_history_not_least_recent :
    (∀ c ∈ repeatCalls, c.typed)
      ∧ runClocked (construct 3 3) Clocks.start repeatCalls = some repeatScenario
      ∧ repeatScenario.1.history_list_ = [2, 1]
      ∧ repeatScenario.1.Evict.value? = some (some 1)
      ∧ repeatScenario.1.is_evictable_ 2 = true
      ∧ repeatScenario.2.last 1 = 3 ∧ repeatScenario.2.last 2 = 2
      ∧ ¬ (∀ g ∈ repeatScenario.1.history_list_, repeatScenario.1.is_evictable_ g = true →
            g ≠ 1 → repeatScenario.2.last 1 < repeatScenario.2.last g) := by
  refine ⟨by decide, by rfl, by decide, by decide, by decide, by decide, by decide, ?_⟩
  intro hall
  have := hall 2 (by decide) (by decide) (by decide)
  exact absurd this (by decide)

/-- C15, amended. After any sequence of calls on a fresh replacer (any `k ≥ 1`) the history
list is in descending order of entry, the entry of a frame being its latest `RecordAccess` call
made at access count 0. When `Evict` returns a frame of the history list, that frame is
evictable and entered the history list before every other evictable frame of the history list.
A frame with access count 1 was last accessed when it entered, so for `k ≤ 2` the returned frame
is also the least recently accessed evictable frame of the history list. -/
theorem C15_evict_history_earliest_entry (num_frames k : Nat) (_hk : 1 ≤ k) (cs : List Call)
    (s : LRUKReplacer) (t : Clocks) (hty : ∀ c ∈ cs, c.typed)
    (hrun : runClocked (construct num_frames k) Clocks.start cs = some (s, t)) :
    s.history_list_.Pairwise (fun a b => t.entered a > t.entered b)
      ∧ (∀ f ∈ s.history_list_, 1 ≤ t.entered f ∧ t.entered f ≤ t.last f
          ∧ t.last f ≤ cs.length)
      ∧ (∀ f s', s.Evict = .returned (some f) s' → f ∈ s.history_list_ →
          s.is_evictable_ f = true
            ∧ ∀ g ∈ s.history_list_, s.is_evictable_ g = true → g ≠ f →
                t.entered f < t.entered g)
      ∧ (k ≤ 2 → ∀ f s', s.Evict = .returned (some f) s' → f ∈ s.history_list_ →
          ∀ g ∈ s.history_list_, s.is_evictable_ g = true → g ≠ f → t.last f < t.last g) := by
  have h := Timed.run cs _ _ _ _ (Timed.start num_frames k) hty hrun
  have hnow := runClocked_now cs _ _ _ _ hrun
  have hkk := (runClocked_reachable cs s t hty hrun).params.2
  have hentry : ∀ f s', s.Evict = .returned (some f) s' → f ∈ s.history_list_ →
      ∀ g ∈ s.history_list_, s.is_evictable_ g = true → g ≠ f → t.entered f < t.entered g := by
    intro f s' hev hm
    exact find?_reverse_sorted _ _ _ _ (Evict_from_history h.inv f hev hm) h.history_sorted
  refine ⟨h.history_sorted, ?_, ?_, ?_⟩
  · intro f hm
    have h1 := h.stamped f ((h.inv.history_count f).1 hm).1
    have h2 := h.last_le f
    simp only [Clocks.start] at hnow
    exact ⟨h1.1, h1.2, by omega⟩
  · intro f s' hev hm
    exact ⟨(find?_reverse_mem _ _ _ (Evict_from_history h.inv f hev hm)).2, hentry f s' hev hm⟩
  · intro hk2 f s' hev hm g hg hge hne
    have hcf := (h.inv.history_count f).1 hm
    have hcg := (h.inv.history_count g).1 hg
    rw [hkk] at hcf hcg
    rw [h.once f (by omega), h.once g (by omega)]
    exact hentry f s' hev hm g hg hge hne

/-- Witness of the amended C15: in the repeat scenario (`k = 3`) frame 1 entered the history list
at call 1, frame 2 at call 2, and `Evict` returns frame 1. -/
theorem C15_evict_history_earliest_entry_witness :
    (∀ c ∈ repeatCalls, c.typed)
      ∧ runClocked (construct 3 3) Clocks.start repeatCalls = some repeatScenario
      ∧ repeatScenario.1.Evict = .returned (some 1) (dropHistory repeatScenario.1 1)
      ∧ repeatScenario.2.entered 1 = 1 ∧ repeatScenario.2.entered 2 = 2
      ∧ repeatScenario.1.is_evictable_ 1 = true
      ∧ ∀ g ∈ repeatScenario.1.history_list_, repeatScenario.1.is_evictable_ g = true → g ≠ 1 →
          repeatScenario.2.entered 1 < repeatScenario.2.entered g :=
  have h := (C15_evict_history_earliest_entry 3 3 (by decide) repeatCalls repeatScenario.1
    repeatScenario.2 (by decide) (by rfl)).2.2.1 1 (dropHistory repeatScenario.1 1) (by rfl)
    (by decide)
  ⟨by decide, by rfl, by rfl, by decide, by decide, h.1, h.2⟩

/-- C16. After any sequence of calls on a fresh replacer (any `k ≥ 1`) the cache list is in
descending order of the position of each frame's latest `RecordAccess` call, most recent first.
Hence, when no frame of the history list is evictable and `Evict` returns a frame, that frame
is in the cache list, is evictable, and its latest access is older than that of every other
evictable frame of the cache list. -/
theorem C16_cache_ordered_by_last_access (num_frames k : Nat) (_hk : 1 ≤ k) (cs : List Call)
    (s : LRUKReplacer) (t : Clocks) (hty : ∀ c ∈ cs, c.typed)
    (hrun : runClocked (construct num_frames k) Clocks.start cs = some (s, t)) :
    s.cache_list_.Pairwise (fun a b => t.last a > t.last b)
      ∧ (∀ f ∈ s.cache_list_, 1 ≤ t.last f ∧ t.last f ≤ cs.length)
      ∧ (∀ f s', (∀ x ∈ s.history_list_, s.is_evictable_ x = false) →
          s.Evict = .returned (some f) s' →
          f ∈ s.cache_list_ ∧ s.is_evictable_ f = true
            ∧ ∀ g ∈ s.cache_list_, s.is_evictable_ g = true → g ≠ f →
                t.last f < t.last g) := by
  have h := Timed.run cs _ _ _ _ (Timed.start num_frames k) hty hrun
  have hnow := runClocked_now cs _ _ _ _ hrun
  refine ⟨h.cache_sorted, ?_, ?_⟩
  · intro f hm
    have h1 := h.stamped f ((h.inv.cache_count f).1 hm).1
    have h2 := h.last_le f
    simp only [Clocks.start] at hnow
    exact ⟨by omega, by omega⟩
  · intro f s' hno hev
    have hfind := Evict_from_cache h.inv f hev hno
    obtain ⟨hm, he⟩ := find?_reverse_mem _ _ _ hfind
    exact ⟨hm, he, find?_reverse_sorted _ _ _ _ hfind h.cache_sorted⟩

/-- Witness of C16: in the hot scenario (`k = 2`) the cache list is `[1, 2]`, frame 1 was last
accessed at call 5 and frame 2 at call 4, and `Evict` returns frame 2. -/
theorem C16_cache_ordered_by_last_access_witness :
    (∀ c ∈ hotCalls, c.typed)
      ∧ runClocked (construct 3 2) Clocks.start hotCalls = some hotScenario
      ∧ hotScenario.1.cache_list_ = [1, 2] ∧ hotScenario.1.history_list_ = []
      ∧ hotScenario.2.last 1 = 5 ∧ hotScenario.2.last 2 = 4
      ∧ hotScenario.1.Evict = .returned (some 2) (dropCache hotScenario.1 2)
      ∧ hotScenario.1.cache_list_.Pairwise
          (fun a b => hotScenario.2.last a > hotScenario.2.last b)
      ∧ ∀ g ∈ hotScenario.1.cache_list_, hotScenario.1.is_evictable_ g = true → g ≠ 2 →
          hotScenario.2.last 2 < hotScenario.2.last g :=
  have h := C16_cache_ordered_by_last_access 3 2 (by decide) hotCalls hotScenario.1
    hotScenario.2 (by decide) (by rfl)
  ⟨by decide, by rfl, by decide, by decide, by decide, by decide, by rfl, h.1,
    (h.2.2 2 (dropCache hotScenario.1 2) (by decide) (by rfl)).2.2⟩

theorem RecordAccess_frame (s s' : LRUKReplacer) (f : Int)
    (hr : ¬ f > static_cast_int s.replacer_size_)
    (hs : (s.RecordAccess f).state? = some s') :
    s'.access_count_ = Function.update s.access_count_ f (s.access_count_ f + 1)
      ∧ s'.is_evictable_ = s.is_evictable_ ∧ s'.Size = s.Size := by
  unfold RecordAccess at hs
  rw [if_neg hr] at hs
  simp only [] at hs
  split_ifs at hs
  all_goals first
    | (simp only [Outcome.state?, Option.some.injEq] at hs; subst hs; exact ⟨rfl, rfl, rfl⟩)
    | (split at hs
       · simp [Outcome.state?] at hs
       · simp only [Outcome.state?, Option.some.injEq] at hs; subst hs; exact ⟨rfl, rfl, rfl⟩)

theorem RecordAccess_defined {num_frames k : Nat} {s : LRUKReplacer}
    (hs : Reachable num_frames k s) (hk : 2 ≤ k) (f : Int) :
    s.RecordAccess f = .thrown .InvalidFrame s ∨ ∃ s', s.RecordAccess f = .returned () s' := by
  by_cases hr : f > static_cast_int s.replacer_size_
  · exact Or.inl (range_check_throws s f true hr).1
  · right
    have h := hs.inv
    rcases RecordAccess_cases h f hr with ⟨hk1, hnm, _⟩ | ⟨s', hret, _⟩
    · rw [hs.params.2] at hk1
      have := (h.history_count f).2 ⟨by omega, by rw [hs.params.2]; omega⟩
      exact absurd this hnm
    · exact ⟨s', hret⟩

theorem SetEvictable_defined (s : LRUKReplacer) (f : Int) (b : Bool) :
    (s.SetEvictable f b).state? ≠ none := by
  unfold SetEvictable
  simp only []
  split_ifs <;> simp [Outcome.state?]

theorem after_defined {num_frames k : Nat} {s : LRUKReplacer}
    (hs : Reachable num_frames k s) (hk : 2 ≤ k) (c : Call) : c.after s ≠ none := by
  have h := hs.inv
  cases c with
  | RecordAccess f =>
    show (s.RecordAccess f).state? ≠ none
    rcases RecordAccess_defined hs hk f with h1 | ⟨s', h1⟩ <;> rw [h1] <;> simp [Outcome.state?]
  | SetEvictable f b => exact SetEvictable_defined s f b
  | Evict =>
    show s.Evict.state? ≠ none
    rcases Evict_cases h with ⟨_, _, _, h1⟩ | ⟨_, _, _, _, h1⟩ | ⟨_, _, h1⟩ <;> rw [h1] <;>
      simp [Outcome.state?]
  | Remove f =>
    show (s.Remove f).state? ≠ none
    rcases Remove_cases h f with h1 | h1 | h1 | ⟨_, _, h1⟩ | ⟨_, _, h1⟩ <;> rw [h1] <;>
      simp [Outcome.state?]

theorem Reachable.tracked_bound {num_frames k : Nat} {s : LRUKReplacer}
    (hs : Reachable num_frames k s) (f : Int) (hf : f ∈ s.history_list_ ∨ f ∈ s.cache_list_) :
    f ≤ static_cast_int num_frames ∧ isFrameId f := by
  obtain ⟨t, ht⟩ := hs.timed
  have hc : 1 ≤ s.access_count_ f := by
    rcases hf with h1 | h1
    · exact ((ht.inv.history_count f).1 h1).1
    · exact ((ht.inv.cache_count f).1 h1).1
  have := ht.passed f hc
  rw [hs.params.1] at this
  exact ⟨by omega, ht.inv.typed f hc⟩

theorem Evict_result (s : LRUKReplacer) :
    s.Evict = .undefined ∨ s.Evict = .returned none s
      ∨ ∃ f s', s.Evict = .returned (some f) s'
          ∧ s'.access_count_ = Function.update s.access_count_ f 0 := by
  unfold Evict
  split_ifs
  · exact Or.inr (Or.inl rfl)
  · split
    · split
      · exact Or.inl rfl
      · exact Or.inr (Or.inr ⟨_, _, rfl, rfl⟩)
    · split
      · split
        · exact Or.inl rfl
        · exact Or.inr (Or.inr ⟨_, _, rfl, rfl⟩)
      · exact Or.inr (Or.inl rfl)

theorem Remove_result (s : LRUKReplacer) (f : Int) :
    s.Remove f = .undefined ∨ (∃ e, s.Remove f = .thrown e s) ∨ s.Remove f = .returned () s
      ∨ ∃ s', s.Remove f = .returned () s'
          ∧ s'.access_count_ = Function.update s.access_count_ f 0 := by
  unfold Remove
  simp only []
  split_ifs
  · exact Or.inr (Or.inl ⟨_, rfl⟩)
  · exact Or.inr (Or.inr (Or.inl rfl))
  · exact Or.inr (Or.inl ⟨_, rfl⟩)
  · split
    · exact Or.inl rfl
    · exact Or.inr (Or.inr (Or.inr ⟨_, rfl, rfl⟩))
  · split
    · exact Or.inl rfl
    · exact Or.inr (Or.inr (Or.inr ⟨_, rfl, rfl⟩))

theorem SetEvictable_count (s s' : LRUKReplacer) (f : Int) (b : Bool)
    (hs : (s.SetEvictable f b).state? = some s') : s'.access_count_ = s.access_count_ := by
  unfold SetEvictable at hs
  simp only [] at hs
  split_ifs at hs
  all_goals
    simp only [Outcome.state?, Option.some.injEq] at hs
    subst hs
    rfl

theorem count_change (c : Call) (s1 s2 : LRUKReplacer) (g : Int) (h : c.after s1 = some s2) :
    s2.access_count_ g = s1.access_count_ g
      ∨ (c = .RecordAccess g ∧ s2.access_count_ g = s1.access_count_ g + 1)
      ∨ (s2.access_count_ g = 0
          ∧ (c = .Remove g ∨ (c = .Evict ∧ s1.Evict.value? = some (some g)))) := by
  cases c with
  | RecordAccess f =>
    by_cases hr : f > static_cast_int s1.replacer_size_
    · have hth := (range_check_throws s1 f true hr).1
      simp only [Call.after, hth, Outcome.state?, Option.some.injEq] at h
      subst h
      exact Or.inl rfl
    · have hfr := (RecordAccess_frame s1 s2 f hr h).1
      by_cases hg : g = f
      · subst hg
        right; left
        rw [hfr, Function.update_same]
        exact ⟨rfl, rfl⟩
      · left
        rw [hfr, Function.update_noteq hg]
  | SetEvictable f b =>
    left
    rw [SetEvictable_count s1 s2 f b h]
  | Evict =>
    rcases Evict_result s1 with hev | hev | ⟨f, s', hev, hcnt⟩
    · simp [Call.after, hev, Outcome.state?] at h
    · simp only [Call.after, hev, Outcome.state?, Option.some.injEq] at h
      subst h
      exact Or.inl rfl
    · simp only [Call.after, hev, Outcome.state?, Option.some.injEq] at h
      subst h
      by_cases hg : g = f
      · subst hg
        right; right
        rw [hcnt, Function.update_same]
        exact ⟨rfl, Or.inr ⟨rfl, by rw [hev]; rfl⟩⟩
      · left
        rw [hcnt, Function.update_noteq hg]
  | Remove f =>
    rcases Remove_result s1 f with hev | ⟨e, hev⟩ | hev | ⟨s', hev, hcnt⟩
    · simp [Call.after, hev, Outcome.state?] at h
    · simp only [Call.after, hev, Outcome.state?, Option.some.injEq] at h
      subst h
      exact Or.inl rfl
    · simp only [Call.after, hev, Outcome.state?, Option.some.injEq] at h
      subst h
      exact Or.inl rfl
    · simp only [Call.after, hev, Outcome.state?, Option.some.injEq] at h
      subst h
      by_cases hg : g = f
      · subst hg
        right; right
        rw [hcnt, Function.update_same]
        exact ⟨rfl, Or.inl rfl⟩
      · left
        rw [hcnt, Function.update_noteq hg]

/-- In every state, for a frame id that passes the range check: unless the call erases through
a position that the map does not hold for a node of the list, `RecordAccess` returns, raises the
access count of the frame by exactly 1 and leaves the access counts of all other frames, all
evictable flags and `Size()` as they were; in a reachable state with `k ≥ 2` the erase is always
through a held position. Over all calls, an access count stays, goes up by 1 in `RecordAccess`
of that frame, or is reset to 0 by `Remove` of that frame or by an `Evict` that returns it. -/
theorem RecordAccess_frame_effects (s : LRUKReplacer) (f : Int)
    (hr : ¬ f > static_cast_int s.replacer_size_) :
    (s.RecordAccess f ≠ .undefined →
        ∃ s', s.RecordAccess f = .returned () s'
          ∧ s'.access_count_ f = s.access_count_ f + 1
          ∧ (∀ g, g ≠ f → s'.access_count_ g = s.access_count_ g)
          ∧ (∀ g, s'.is_evictable_ g = s.is_evictable_ g)
          ∧ s'.Size = s.Size)
      ∧ (∀ num_frames k, 2 ≤ k → Reachable num_frames k s → s.RecordAccess f ≠ .undefined)
      ∧ (∀ (c : Call) (s1 s2 : LRUKReplacer) (g : Int), c.after s1 = some s2 →
          s2.access_count_ g = s1.access_count_ g
            ∨ (c = .RecordAccess g ∧ s2.access_count_ g = s1.access_count_ g + 1)
            ∨ (s2.access_count_ g = 0
                ∧ (c = .Remove g ∨ (c = .Evict ∧ s1.Evict.value? = some (some g))))) := by
  refine ⟨?_, ?_, count_change⟩
  · intro hdef
    cases hres : s.RecordAccess f with
    | undefined => exact absurd hres hdef
    | thrown e s1 =>
      exfalso
      unfold RecordAccess at hres
      rw [if_neg hr] at hres
      simp only [] at hres
      split_ifs at hres <;> first | exact Outcome.noConfusion hres | (split at hres <;> exact Outcome.noConfusion hres)
    | returned v s' =>
      have hfr := RecordAccess_frame s s' f hr (by rw [hres]; rfl)
      refine ⟨s', rfl, ?_, ?_, ?_, hfr.2.2⟩
      · rw [hfr.1, Function.update_same]
      · intro g hg
        rw [hfr.1, Function.update_noteq hg]
      · intro g
        rw [hfr.2.1]
  · intro num_frames k hk hreach hun
    rcases RecordAccess_defined hreach hk f with h1 | ⟨s', h1⟩
    · rw [h1] at hun; exact Outcome.noConfusion hun
    · rw [h1] at hun; exact Outcome.noConfusion hun

/-- C17. With `k = 1` a `RecordAccess` that passes the range check leaves no state at all: on the
fresh `LRUKReplacer(2, 1)` frame 1 passes the range check and has access count 0, the new count
equals `k`, and the promotion branch erases through `history_map_[1]`, which is not stored. No
state results, so none in which the access count of frame 1 is 1 with flags and `Size()` as
before. -/
theorem C17_recordAccess_no_result_at_k_one :
    Reachable 2 1 (construct 2 1)
      ∧ ¬ (1 : Int) > static_cast_int (construct 2 1).replacer_size_
      ∧ (construct 2 1).access_count_ 1 = 0
      ∧ (construct 2 1).RecordAccess 1 = .undefined
      ∧ ¬ ∃ s', ((construct 2 1).RecordAccess 1).state? = some s'
          ∧ s'.access_count_ 1 = (construct 2 1).access_count_ 1 + 1 := by
  refine ⟨Reachable.construct, by decide, by decide, by rfl, ?_⟩
  rintro ⟨s', h1, _⟩
  have h2 : (construct 2 1).RecordAccess 1 = .undefined := by rfl
  rw [h2] at h1
  exact Option.noConfusion h1

/-- C18. With `k = 1` the promotion branch of `RecordAccess` erases through a position that
`history_map_` does not hold: the fresh `LRUKReplacer(4, 1)` is reachable, frame 2 passes the
range check, its new access count equals `k`, `history_map_` has no entry for it and it is not
in the history list. -/
theorem C18_promotion_erases_absent_entry_at_k_one :
    Reachable 4 1 (construct 4 1)
      ∧ ¬ (2 : Int) > static_cast_int (construct 4 1).replacer_size_
      ∧ (construct 4 1).access_count_ 2 + 1 = (construct 4 1).k_
      ∧ (construct 4 1).history_map_ 2 = false
      ∧ (2 : Int) ∉ (construct 4 1).history_list_
      ∧ eraseVia (construct 4 1).history_map_ (construct 4 1).history_list_ 2 = none
      ∧ Call.after (construct 4 1) (.RecordAccess 2) = none :=
  ⟨Reachable.construct, by decide, by decide, by decide, by decide, by decide, by rfl⟩

/-- C19. In every reachable state (any `k ≥ 1`), when `Evict` succeeds with frame `f`, the call
`Remove(f)` on the same state returns and leaves exactly the state `Evict` left. -/
theorem C19_evict_is_remove_of_victim (num_frames k : Nat) (_hk : 1 ≤ k) (s s' : LRUKReplacer)
    (f : Int) (hs : Reachable num_frames k s) (hev : s.Evict = .returned (some f) s') :
    s.Remove f = .returned () s' := by
  obtain ⟨t, ht⟩ := hs.timed
  have h := ht.inv
  rcases Evict_cases h with ⟨f0, hm, he, hev0⟩ | ⟨f0, hm, he, _, hev0⟩ | ⟨_, _, hev0⟩
  · rw [hev0] at hev
    simp only [Outcome.returned.injEq, Option.some.injEq] at hev
    rw [← hev.1, ← hev.2]
    exact Remove_history h f0 (ht.passed f0 ((h.history_count f0).1 hm).1) hm he
  · rw [hev0] at hev
    simp only [Outcome.returned.injEq, Option.some.injEq] at hev
    rw [← hev.1, ← hev.2]
    exact Remove_cache h f0 (ht.passed f0 ((h.cache_count f0).1 hm).1) hm he
  · rw [hev0] at hev
    simp at hev

/-- Witness of C19: in the tier scenario `Evict` returns frame 2 and leaves the state that
`Remove(2)` leaves. -/
theorem C19_evict_is_remove_of_victim_witness :
    Reachable 3 2 tierScenario
      ∧ tierScenario.Evict = .returned (some 2) (dropHistory tierScenario 2)
      ∧ tierScenario.Remove 2 = .returned () (dropHistory tierScenario 2) :=
  ⟨tierScenario_reachable, by rfl,
    C19_evict_is_remove_of_victim 3 2 (by decide) tierScenario (dropHistory tierScenario 2) 2
      tierScenario_reachable (by rfl)⟩

/-- C20. The tracked ids are not confined to `[0, num_frames)`: on `LRUKReplacer(1, 2)` the
calls `RecordAccess(0)`, `RecordAccess(1)`, `RecordAccess(-1)` and `SetEvictable(_, true)` on
the three ids all pass the range check; the reachable state has the history list `[-1, 1, 0]`,
so three tracked frames, and `Size()` is 3, with `num_frames = 1`. -/
theorem C20_tracked_ids_exceed_capacity :
    Reachable 1 2 edgeScenario
      ∧ edgeScenario.replacer_size_ = 1
      ∧ edgeScenario.history_list_ = [-1, 1, 0] ∧ edgeScenario.cache_list_ = []
      ∧ ¬ ((0 : Int) ≤ 1 ∧ (1 : Int) < edgeScenario.replacer_size_)
      ∧ ¬ ((0 : Int) ≤ -1 ∧ (-1 : Int) < edgeScenario.replacer_size_)
      ∧ edgeScenario.history_list_.length = 3 ∧ edgeScenario.Size = 3
      ∧ edgeScenario.replacer_size_ < edgeScenario.Size :=
  ⟨Reachable.runCalls edgeCalls _ _ Reachable.construct (by decide) (by rfl), by decide,
    by decide, by decide, by decide, by decide, by decide, by decide, by decide⟩

end bustub
